import Mathlib

/-!
Verification development for the parameter-sweep signal composition engine
of `finlab_crypto/strategy.py`.

The shallow embedding below translates the data model and operations of
`strategy.py` into Lean:

* parameter assignments are ordered association lists from names to values
  (`Assignment`), with values (`PyVal`) covering the supported scalar types:
  Python ints, floats (represented by their `repr` token, which for Python
  floats is injective and round-trips through `float(...)`), and strings;
* the column-key codec of `Filter.create.ret_f` (`str(v)` at line 116/118,
  `eval` of the column string at lines 123-124) becomes `encodeAssignment` /
  `decodeAssignment`: `encodeAssignment` renders the Python `str()` of the
  dict, and `decodeAssignment` models `eval` restricted to the grammar of
  encoded assignments (outside that grammar `eval` raises, e.g. `NameError`
  on the token `inf`, modelled as `none`);
* signal tables become `Frame` (a list of labelled boolean columns), the
  vectorbt `tile` / `repeat` / `&` operations of `Strategy._add_filters`
  (lines 257-261) become list operations, and the figure-dict merge
  (lines 263-274) becomes association-list updates;
* the mutable `Filter` instance (`set_parameters`, the per-variant loop of
  `ret_f`) becomes explicit state passing over `FilterState`;
* `Strategy.backtest` (lines 304-408) becomes `backtest`, parameterised over
  its external collaborators (`enumerate_signal`, `stop_early`,
  `vbt.Portfolio.from_signals`, `.iloc` slicing) which the spec treats as
  outside the core.

Functions of `finlab_crypto/utility.py` (not part of the sources at hand)
are modelled from the spec where needed; each such definition carries a
doc comment starting with `Modelled from the spec:`.
-/

/-- Characters written via their code point to keep the source free of
quote-like literals: the single quote `'`. -/
def squote : Char := Char.ofNat 39

/-- The backslash character. -/
def bslash : Char := Char.ofNat 92

/-- The opening brace of a Python dict literal. -/
def lbrace : Char := Char.ofNat 123

/-- The closing brace of a Python dict literal. -/
def rbrace : Char := Char.ofNat 125

/-- Parameter names and rendered keys are plain strings of characters. -/
abbrev Key := List Char

/-- A Python scalar parameter value as used in sweeps: an int, a float, or a
string.  A float is represented by its Python `repr` token (for Python
floats `repr` is injective and `float(repr(x)) == x`), so distinct tokens
stand for distinct floats; e.g. the tokens of `20.0`, `1.5e-08` and
`float('inf')` are `20.0`, `1.5e-08` and `inf`. -/
inductive PyVal where
  | int : Int → PyVal
  | float : List Char → PyVal
  | str : List Char → PyVal
deriving DecidableEq

/-- A concrete parameter assignment: an ordered mapping from parameter name
to one scalar value (a Python dict with string keys). -/
abbrev Assignment := List (Key × PyVal)

/-! ## Association-list primitives (Python dict operations)

Python dicts preserve insertion order; assignment to an existing key
overwrites in place, assignment to a fresh key appends. -/

/-- `k in d` for a Python dict. -/
def containsKey (k : Key) : List (Key × α) → Bool
  | [] => false
  | p :: rest => (p.1 = k) || containsKey k rest

/-- `d[k]` lookup for a Python dict (first matching entry). -/
def aLookup (k : Key) : List (Key × α) → Option α
  | [] => none
  | p :: rest => if p.1 = k then some p.2 else aLookup k rest

/-- `d[k] = v` for a Python dict: overwrite in place if present, else append. -/
def dictInsert (k : Key) (v : α) (d : List (Key × α)) : List (Key × α) :=
  if containsKey k d then d.map (fun p => if p.1 = k then (k, v) else p)
  else d ++ [(k, v)]

/-- `d.pop(k)` restricted to its effect on the dict: drop the entry. -/
def dictRemove (k : Key) (d : List (Key × α)) : List (Key × α) :=
  d.filter (fun p => !(p.1 = k : Bool))

/-! ## The column-key codec of `Filter.create.ret_f`

Encoding is Python `str(v)` applied to the assignment dict
(`strategy.py` lines 113-118): `{'k1': v1, 'k2': v2}` with `repr` applied
to each key and value.  Decoding is `eval` applied to that string
(`strategy.py` lines 123-124), modelled as a parser of the encoded
grammar; where `eval` would raise (malformed text, or the `inf` / `nan`
tokens produced by non-finite floats, which are unbound names) the model
returns `none`. -/

/-- The decimal digit characters. -/
def digitChar : Nat → Char
  | 0 => '0'
  | 1 => '1'
  | 2 => '2'
  | 3 => '3'
  | 4 => '4'
  | 5 => '5'
  | 6 => '6'
  | 7 => '7'
  | 8 => '8'
  | _ => '9'

/-- Numeric value of a digit character. -/
def charVal (c : Char) : Nat := c.toNat - 48

/-- Fuel-driven decimal rendering of a natural number (most significant
digit first), as produced by Python `repr` of a nonnegative int. -/
def natDigitsAux : Nat → Nat → List Char
  | 0, _ => []
  | fuel + 1, n =>
    if n < 10 then [digitChar n]
    else natDigitsAux fuel (n / 10) ++ [digitChar (n % 10)]

/-- Decimal rendering of a natural number; `n + 1` units of fuel always
suffice since the number of digits of `n` is at most `n + 1`. -/
def natDigits (n : Nat) : List Char := natDigitsAux (n + 1) n

/-- Reading a digit string back into a natural number. -/
def digitsVal (cs : List Char) : Nat :=
  cs.foldl (fun a c => a * 10 + charVal c) 0

/-- Python `repr` of an int: optional minus sign followed by the decimal
digits of the absolute value. -/
def intToChars (n : Int) : List Char :=
  if n < 0 then '-' :: natDigits n.natAbs else natDigits n.toNat

/-- Python `repr` of a supported scalar value, as embedded in `str(dict)`:
ints render in decimal, floats render as their `repr` token, strings render
single-quoted (exact for strings of printable ASCII without quote or
backslash, see `strOk`). -/
def renderVal : PyVal → List Char
  | .int n => intToChars n
  | .float t => t
  | .str s => squote :: s ++ [squote]

/-- One `'key': value` element of Python `str(dict)`. -/
def renderEntry (p : Key × PyVal) : List Char :=
  squote :: p.1 ++ squote :: ':' :: ' ' :: renderVal p.2

/-- The comma-separated entry list of Python `str(dict)`. -/
def renderEntries : Assignment → List Char
  | [] => []
  | [p] => renderEntry p
  | p :: rest => renderEntry p ++ ',' :: ' ' :: renderEntries rest

/-- `encode`: Python `str(v)` of the assignment dict, the column key built
at `strategy.py` line 116/118. -/
def encodeAssignment (a : Assignment) : List Char :=
  lbrace :: renderEntries a ++ [rbrace]

/-- Characters that may appear in a numeric literal token. -/
def numChar (c : Char) : Bool :=
  c.isDigit || c = '.' || c = 'e' || c = '-' || c = '+'

/-- Consume the body of a single-quoted string up to its closing quote. -/
def takeStr : List Char → Option (List Char × List Char)
  | [] => none
  | c :: cs =>
    if c = squote then some ([], cs)
    else
      match takeStr cs with
      | some (s, r) => some (c :: s, r)
      | none => none

/-- Greedily consume a run of numeric-literal characters. -/
def takeNum : List Char → List Char × List Char
  | [] => ([], [])
  | c :: cs =>
    if numChar c then
      let (t, r) := takeNum cs
      (c :: t, r)
    else ([], c :: cs)

/-- Parse a decimal int token (optional minus sign, then digits). -/
def parseIntTok : List Char → Option Int
  | [] => none
  | c :: cs =>
    if c = '-' then
      if cs.isEmpty then none
      else if cs.all Char.isDigit then some (-(digitsVal cs : Int)) else none
    else if (c :: cs).all Char.isDigit then some ((digitsVal (c :: cs) : Int))
    else none

/-- Whether a character occurs in a token. -/
def hasChar (c0 : Char) (t : List Char) : Bool := t.any (fun c => c = c0)

/-- Classify a numeric token the way `eval` types the literal: a token with
a decimal point or exponent is a float literal, a bare digit string (with
optional sign) is an int literal, anything else (e.g. the empty token
obtained from the name `inf`) fails. -/
def classifyNum (t : List Char) : Option PyVal :=
  if t.isEmpty then none
  else if hasChar '.' t || hasChar 'e' t then some (.float t)
  else (parseIntTok t).map PyVal.int

/-- Parse one value of a dict literal: a quoted string or a numeric literal. -/
def parseValue (cs : List Char) : Option (PyVal × List Char) :=
  match cs with
  | [] => none
  | c :: rest =>
    if c = squote then (takeStr rest).map (fun p => (PyVal.str p.1, p.2))
    else
      let (t, r) := takeNum (c :: rest)
      (classifyNum t).map (fun v => (v, r))

/-- Parse one `'key': value` entry of a dict literal. -/
def parseEntry (cs : List Char) : Option ((Key × PyVal) × List Char) :=
  match cs with
  | [] => none
  | c :: rest =>
    if c = squote then
      match takeStr rest with
      | some (k, r1) =>
        match r1 with
        | c1 :: c2 :: r2 =>
          if c1 = ':' ∧ c2 = ' ' then
            (parseValue r2).map (fun p => ((k, p.1), p.2))
          else none
        | _ => none
      | none => none
    else none

/-- Parse the entries of a nonempty dict literal up to and including the
closing brace, fuel-driven (each entry consumes at least one character). -/
def parseEntriesF : Nat → List Char → Option (Assignment × List Char)
  | 0, _ => none
  | fuel + 1, cs =>
    match parseEntry cs with
    | none => none
    | some (e, rest) =>
      match rest with
      | [] => none
      | c :: rest2 =>
        if c = rbrace then some ([e], rest2)
        else if c = ',' then
          match rest2 with
          | [] => none
          | c2 :: rest3 =>
            if c2 = ' ' then
              match parseEntriesF fuel rest3 with
              | some (es, rr) => some (e :: es, rr)
              | none => none
            else none
        else none

/-- `decode`: `eval` of a column key (`strategy.py` lines 123-124),
restricted to the dict-literal grammar that `encodeAssignment` emits;
inputs on which `eval` raises are mapped to `none`. -/
def decodeAssignment (cs : List Char) : Option Assignment :=
  match cs with
  | [] => none
  | c :: rest =>
    if c = lbrace then
      match rest with
      | [d] => if d = rbrace then some [] else none
      | _ =>
        match parseEntriesF (rest.length + 1) rest with
        | some (es, []) => some es
        | _ => none
    else none

/-! ### Well-formedness of the supported values

`strOk` captures strings whose Python `repr` is literally the string
between single quotes: printable ASCII with no quote and no backslash
(parameter names and enumerated string tokens such as `mmi` or `long`).
`floatTokOk` captures the `repr` tokens of finite floats: a nonempty run
of numeric-literal characters containing a decimal point or exponent
(every Python finite-float `repr` has this shape; the non-finite tokens
`inf` and `nan` do not). -/

/-- A character whose single-quoted Python `repr` is itself. -/
def strCharOk (c : Char) : Bool :=
  32 ≤ c.toNat && c.toNat ≤ 126 && !(c = squote : Bool) && !(c = bslash : Bool)

/-- A string rendered verbatim by Python `repr`. -/
def strOk (s : List Char) : Bool := s.all strCharOk

/-- The shape of the `repr` token of a finite Python float. -/
def floatTokOk (t : List Char) : Bool :=
  !t.isEmpty && t.all numChar && (hasChar '.' t || hasChar 'e' t)

/-- Well-formedness of one supported value. -/
def valOk : PyVal → Bool
  | .int _ => true
  | .float t => floatTokOk t
  | .str s => strOk s

/-- Well-formedness of an assignment: printable keys, supported values. -/
def assignmentOk (a : Assignment) : Bool :=
  a.all (fun p => strOk p.1 && valOk p.2)

/-! ### Decimal rendering round-trips -/

theorem charVal_digitChar {d : Nat} (h : d < 10) : charVal (digitChar d) = d := by
  interval_cases d <;> decide

theorem isDigit_digitChar {d : Nat} (h : d < 10) : (digitChar d).isDigit = true := by
  interval_cases d <;> decide

theorem digitsVal_append_last (a : List Char) (c : Char) :
    digitsVal (a ++ [c]) = digitsVal a * 10 + charVal c := by
  simp [digitsVal, List.foldl_append]

theorem natDigitsAux_spec :
    ∀ (fuel n : Nat), n < fuel →
      natDigitsAux fuel n ≠ [] ∧ (natDigitsAux fuel n).all Char.isDigit = true ∧
        digitsVal (natDigitsAux fuel n) = n
  | 0, _, h => absurd h (by omega)
  | fuel + 1, n, h => by
    by_cases h10 : n < 10
    · refine ⟨by simp [natDigitsAux, h10], ?_, ?_⟩
      · simp [natDigitsAux, h10, isDigit_digitChar h10]
      · simp [natDigitsAux, h10, digitsVal, charVal_digitChar h10]
    · have hdiv : n / 10 < fuel := by
        have := Nat.div_lt_self (by omega : 0 < n) (by omega : 1 < 10)
        omega
      obtain ⟨hne, hall, hval⟩ := natDigitsAux_spec fuel (n / 10) hdiv
      refine ⟨by simp [natDigitsAux, h10], ?_, ?_⟩
      · simp only [natDigitsAux, if_neg h10, List.all_append, Bool.and_eq_true]
        exact ⟨hall, by simp [isDigit_digitChar (Nat.mod_lt n (by omega))]⟩
      · simp only [natDigitsAux, if_neg h10, digitsVal_append_last, hval,
          charVal_digitChar (Nat.mod_lt n (by omega))]
        omega

theorem natDigits_ne_nil (n : Nat) : natDigits n ≠ [] :=
  (natDigitsAux_spec (n + 1) n (by omega)).1

theorem natDigits_all_digits (n : Nat) : (natDigits n).all Char.isDigit = true :=
  (natDigitsAux_spec (n + 1) n (by omega)).2.1

theorem digitsVal_natDigits (n : Nat) : digitsVal (natDigits n) = n :=
  (natDigitsAux_spec (n + 1) n (by omega)).2.2

theorem isDigit_ne_dash {c : Char} (h : c.isDigit = true) : ¬ (c = '-') := by
  intro hc; subst hc; exact absurd h (by decide)

theorem parseIntTok_intToChars (n : Int) : parseIntTok (intToChars n) = some n := by
  by_cases hn : n < 0
  · have hemp : (natDigits n.natAbs).isEmpty = false := by
      cases h : natDigits n.natAbs with
      | nil => exact absurd h (natDigits_ne_nil n.natAbs)
      | cons a l => rfl
    rw [intToChars, if_pos hn]
    show parseIntTok ('-' :: natDigits n.natAbs) = some n
    simp only [parseIntTok]
    rw [if_pos trivial, hemp,
      if_neg (by exact Bool.false_ne_true), if_pos (natDigits_all_digits n.natAbs),
      digitsVal_natDigits]
    congr 1
    omega
  · obtain ⟨c, cs, hccs⟩ := List.exists_cons_of_ne_nil (natDigits_ne_nil n.toNat)
    have hall : (c :: cs).all Char.isDigit = true := hccs ▸ natDigits_all_digits n.toNat
    have hcd : c.isDigit = true := by
      have h := hall
      simp only [List.all_cons, Bool.and_eq_true] at h
      exact h.1
    rw [intToChars, if_neg hn, hccs]
    simp only [parseIntTok]
    rw [if_neg (isDigit_ne_dash hcd), if_pos hall, ← hccs, digitsVal_natDigits]
    congr 1
    omega

/-! ### String and numeric token consumption -/

/-- The character after a token in an encoded dict is never part of a
numeric literal (it is a comma or the closing brace). -/
def headNotNum (r : List Char) : Bool :=
  match r with
  | [] => true
  | c :: _ => !numChar c

theorem takeStr_append (s r : List Char)
    (h : ∀ c ∈ s, ¬ (c = squote)) :
    takeStr (s ++ squote :: r) = some (s, r) := by
  induction s with
  | nil => simp [takeStr]
  | cons c s ih =>
    have hc : ¬ (c = squote) := h c (by simp)
    simp only [List.cons_append, takeStr, if_neg hc, List.append_eq,
      ih (fun x hx => h x (by simp [hx]))]

theorem takeNum_append (t r : List Char) (ht : t.all numChar = true)
    (hr : headNotNum r = true) :
    takeNum (t ++ r) = (t, r) := by
  induction t with
  | nil =>
    cases r with
    | nil => rfl
    | cons c cs =>
      have : numChar c = false := by
        simp only [headNotNum, Bool.not_eq_true'] at hr
        exact hr
      simp [takeNum, this]
  | cons c t ih =>
    simp only [List.all_cons, Bool.and_eq_true] at ht
    simp only [List.cons_append, takeNum, if_pos ht.1, List.append_eq, ih ht.2]

theorem strOk_no_squote {s : List Char} (h : strOk s = true) :
    ∀ c ∈ s, ¬ (c = squote) := by
  intro c hc
  simp only [strOk, List.all_eq_true] at h
  have h2 := h c hc
  simp only [strCharOk, Bool.and_eq_true, Bool.not_eq_true',
    decide_eq_false_iff_not] at h2
  exact h2.1.2

theorem numChar_ne_squote {c : Char} (h : numChar c = true) : ¬ (c = squote) := by
  intro heq
  subst heq
  exact absurd h (by decide)

theorem intToChars_digit_or_dash (n : Int) :
    ∀ c ∈ intToChars n, c.isDigit = true ∨ c = '-' := by
  intro c hc
  rw [intToChars] at hc
  by_cases hn : n < 0
  · rw [if_pos hn] at hc
    rcases List.mem_cons.mp hc with h | h
    · exact Or.inr h
    · exact Or.inl ((List.all_eq_true.mp (natDigits_all_digits n.natAbs)) c h)
  · rw [if_neg hn] at hc
    exact Or.inl ((List.all_eq_true.mp (natDigits_all_digits n.toNat)) c hc)

theorem intToChars_ne_nil (n : Int) : intToChars n ≠ [] := by
  rw [intToChars]
  by_cases hn : n < 0
  · rw [if_pos hn]; exact List.cons_ne_nil _ _
  · rw [if_neg hn]; exact natDigits_ne_nil n.toNat

theorem intToChars_all_num (n : Int) : (intToChars n).all numChar = true := by
  rw [List.all_eq_true]
  intro c hc
  rcases intToChars_digit_or_dash n c hc with h | h
  · simp [numChar, h]
  · subst h; decide

theorem intToChars_no_dot (n : Int) : hasChar '.' (intToChars n) = false := by
  rw [hasChar, List.any_eq_false]
  intro c hc
  rcases intToChars_digit_or_dash n c hc with h | h
  · simp only [decide_eq_true_eq]
    intro he; subst he; exact absurd h (by decide)
  · subst h; decide

theorem intToChars_no_e (n : Int) : hasChar 'e' (intToChars n) = false := by
  rw [hasChar, List.any_eq_false]
  intro c hc
  rcases intToChars_digit_or_dash n c hc with h | h
  · simp only [decide_eq_true_eq]
    intro he; subst he; exact absurd h (by decide)
  · subst h; decide

theorem isEmpty_false_of_ne_nil {l : List Char} (h : l ≠ []) : l.isEmpty = false := by
  cases l with
  | nil => exact absurd rfl h
  | cons a t => rfl

theorem classifyNum_intToChars (n : Int) : classifyNum (intToChars n) = some (.int n) := by
  rw [classifyNum, isEmpty_false_of_ne_nil (intToChars_ne_nil n)]
  rw [if_neg Bool.false_ne_true, intToChars_no_dot, intToChars_no_e]
  rw [if_neg (by decide : ¬ ((false || false) = true))]
  rw [parseIntTok_intToChars]
  rfl

theorem parseValue_render (v : PyVal) (r : List Char) (hv : valOk v = true)
    (hr : headNotNum r = true) :
    parseValue (renderVal v ++ r) = some (v, r) := by
  cases v with
  | int n =>
    obtain ⟨c, cs, hccs⟩ := List.exists_cons_of_ne_nil (intToChars_ne_nil n)
    have hnum : (c :: cs).all numChar = true := hccs ▸ intToChars_all_num n
    have hcnum : numChar c = true := by
      simp only [List.all_cons, Bool.and_eq_true] at hnum
      exact hnum.1
    show parseValue (intToChars n ++ r) = some (.int n, r)
    rw [hccs, List.cons_append]
    simp only [parseValue]
    rw [if_neg (numChar_ne_squote hcnum), ← List.cons_append, ← hccs,
      takeNum_append (intToChars n) r (intToChars_all_num n) hr,
      classifyNum_intToChars n]
    rfl
  | float t =>
    simp only [valOk, floatTokOk, Bool.and_eq_true, Bool.not_eq_true'] at hv
    obtain ⟨⟨hne, hall⟩, hdot⟩ := hv
    have htne : t ≠ [] := by
      intro h; rw [h] at hne; exact absurd hne (by decide)
    obtain ⟨c, cs, hccs⟩ := List.exists_cons_of_ne_nil htne
    have hnum : (c :: cs).all numChar = true := hccs ▸ hall
    have hcnum : numChar c = true := by
      simp only [List.all_cons, Bool.and_eq_true] at hnum
      exact hnum.1
    show parseValue (t ++ r) = some (.float t, r)
    rw [hccs, List.cons_append]
    simp only [parseValue]
    rw [if_neg (numChar_ne_squote hcnum), ← List.cons_append, ← hccs,
      takeNum_append t r hall hr, classifyNum, isEmpty_false_of_ne_nil htne,
      if_neg Bool.false_ne_true, if_pos hdot]
    rfl
  | str s =>
    simp only [valOk] at hv
    show parseValue ((squote :: s ++ [squote]) ++ r) = some (.str s, r)
    have harr : (squote :: s ++ [squote]) ++ r = squote :: (s ++ squote :: r) := by
      simp
    rw [harr]
    simp only [parseValue]
    rw [if_pos trivial, takeStr_append s r (strOk_no_squote hv)]
    rfl

theorem parseEntry_render (p : Key × PyVal) (r : List Char) (hk : strOk p.1 = true)
    (hv : valOk p.2 = true) (hr : headNotNum r = true) :
    parseEntry (renderEntry p ++ r) = some (p, r) := by
  obtain ⟨k, v⟩ := p
  have harr : renderEntry (k, v) ++ r =
      squote :: (k ++ squote :: (':' :: ' ' :: (renderVal v ++ r))) := by
    simp [renderEntry]
  rw [harr]
  simp only [parseEntry]
  rw [if_pos trivial, takeStr_append k _ (strOk_no_squote hk)]
  simp only [if_pos (And.intro trivial trivial)]
  rw [parseValue_render v r hv hr]
  rfl

theorem parseEntriesF_render (l : Assignment) : ∀ (fuel : Nat) (r : List Char),
    l ≠ [] → assignmentOk l = true → l.length ≤ fuel →
    parseEntriesF fuel (renderEntries l ++ rbrace :: r) = some (l, r) := by
  induction l with
  | nil => intro fuel r h _ _; exact absurd rfl h
  | cons p l ih =>
    intro fuel r _ hok hlen
    cases fuel with
    | zero => simp at hlen
    | succ f =>
      simp only [assignmentOk, List.all_cons, Bool.and_eq_true] at hok
      obtain ⟨⟨hk, hv⟩, hok'⟩ := hok
      cases l with
      | nil =>
        have hrb : headNotNum (rbrace :: r) = true := rfl
        rw [show renderEntries [p] = renderEntry p from rfl]
        simp only [parseEntriesF]
        rw [parseEntry_render p (rbrace :: r) hk hv hrb]
        simp only [if_pos trivial]
      | cons q rest =>
        rw [show renderEntries (p :: q :: rest) =
          renderEntry p ++ ',' :: ' ' :: renderEntries (q :: rest) from rfl]
        rw [List.append_assoc, List.cons_append, List.cons_append]
        have hcm : headNotNum (',' :: ' ' :: (renderEntries (q :: rest) ++ rbrace :: r)) =
            true := rfl
        simp only [parseEntriesF]
        rw [parseEntry_render p _ hk hv hcm]
        simp only []
        rw [if_neg (by decide : ¬ ((',' : Char) = rbrace)), if_pos trivial,
          if_pos trivial]
        have hlen' : (q :: rest).length ≤ f := by
          simp only [List.length_cons] at hlen ⊢
          omega
        rw [ih f r (List.cons_ne_nil q rest)
          (by simp only [assignmentOk]; exact hok') hlen']

theorem renderEntries_length_ge (l : Assignment) :
    l.length ≤ (renderEntries l).length := by
  induction l with
  | nil => simp [renderEntries]
  | cons p l ih =>
    cases l with
    | nil => simp [renderEntries, renderEntry]
    | cons q rest =>
      rw [show renderEntries (p :: q :: rest) =
        renderEntry p ++ ',' :: ' ' :: renderEntries (q :: rest) from rfl]
      have h1 : 1 ≤ (renderEntry p).length := by simp [renderEntry]
      simp only [List.length_cons, List.length_append] at *
      omega

theorem renderEntries_cons_head (p : Key × PyVal) (l : Assignment) :
    ∃ W, renderEntries (p :: l) = squote :: W := by
  cases l with
  | nil =>
    exact ⟨p.1 ++ squote :: ':' :: ' ' :: renderVal p.2,
      by rw [show renderEntries [p] = renderEntry p from rfl, renderEntry,
        List.cons_append]⟩
  | cons q rest =>
    refine ⟨(p.1 ++ squote :: ':' :: ' ' :: renderVal p.2) ++
      ',' :: ' ' :: renderEntries (q :: rest), ?_⟩
    rw [show renderEntries (p :: q :: rest) =
      renderEntry p ++ ',' :: ' ' :: renderEntries (q :: rest) from rfl,
      renderEntry, List.cons_append, List.cons_append]

/-- C1 (amended): for every assignment built from the supported value
types in their well-formed shapes — arbitrary ints, finite-float `repr`
tokens, and printable quote-free strings — decoding the encoded column key
recovers the assignment exactly: `decode(encode(a)) = a`. -/
theorem decode_encode_roundtrip (a : Assignment) (h : assignmentOk a = true) :
    decodeAssignment (encodeAssignment a) = some a := by
  cases a with
  | nil => rfl
  | cons p l =>
    obtain ⟨W, hW⟩ := renderEntries_cons_head p l
    have hshape : ∃ y zs, renderEntries (p :: l) ++ [rbrace] = squote :: y :: zs := by
      rw [hW, List.cons_append]
      cases hWr : W ++ [rbrace] with
      | nil =>
        have := congrArg List.length hWr
        simp at this
      | cons y zs => exact ⟨y, zs, rfl⟩
    obtain ⟨y, zs, hyz⟩ := hshape
    rw [encodeAssignment, List.cons_append, hyz]
    simp only [decodeAssignment]
    rw [if_pos trivial, ← hyz]
    have hfuel : (p :: l).length ≤ (renderEntries (p :: l) ++ [rbrace]).length + 1 := by
      have := renderEntries_length_ge (p :: l)
      simp only [List.length_append, List.length_cons] at *
      omega
    rw [show renderEntries (p :: l) ++ [rbrace] =
      renderEntries (p :: l) ++ rbrace :: [] from rfl,
      parseEntriesF_render (p :: l) _ [] (List.cons_ne_nil p l) h hfuel]

/-- C1 (counterexample to the claim as stated): the claim covers every
float, but a non-finite float breaks the round-trip.  Python renders
`float('inf')` as the token `inf`, so `str({'p': float('inf')})` is
`"{'p': inf}"`, and `eval` of that string raises `NameError` (`inf` is not
a bound name); decoding fails instead of recovering the assignment. -/
theorem decode_encode_inf_fails :
    decodeAssignment (encodeAssignment [( ['p'], PyVal.float ['i', 'n', 'f'] )]) = none ∧
    decodeAssignment (encodeAssignment [( ['p'], PyVal.float ['i', 'n', 'f'] )]) ≠
      some [( ['p'], PyVal.float ['i', 'n', 'f'] )] := by
  constructor
  · rfl
  · intro h
    exact absurd h (by decide)

/-- C1 (witness): the round-trip theorem applied to the concrete assignment
`{'tp': 20, 'x': 1.5, 's': 'mmi'}` holding an int, a finite float and a
string token. -/
theorem decode_encode_roundtrip_witness :
    assignmentOk [( ['t', 'p'], PyVal.int 20 ), ( ['x'], PyVal.float ['1', '.', '5'] ),
      ( ['s'], PyVal.str ['m', 'm', 'i'] )] = true ∧
    decodeAssignment (encodeAssignment [( ['t', 'p'], PyVal.int 20 ),
      ( ['x'], PyVal.float ['1', '.', '5'] ), ( ['s'], PyVal.str ['m', 'm', 'i'] )]) =
      some [( ['t', 'p'], PyVal.int 20 ), ( ['x'], PyVal.float ['1', '.', '5'] ),
        ( ['s'], PyVal.str ['m', 'm', 'i'] )] :=
  ⟨by decide, decode_encode_roundtrip _ (by decide)⟩

/-! ## Signal tables and `Strategy._add_filters` (`strategy.py` lines 232-276)

A signal table is a list of boolean columns, each tagged with its
provenance label (the pandas `MultiIndex` tuple together with its level
names, modelled as an ordered list of `(field name, value)` pairs).  The
vectorbt operations used at line 259-260 are: `df.vbt.tile(n)` repeats the
whole column block `n` times, `df.vbt.repeat(n)` repeats each column `n`
times, and `&` combines two equally-shaped frames columnwise and
elementwise, stacking the column labels of both operands. -/

/-- The provenance label of one column. -/
abbrev Label := List (Key × PyVal)

/-- A signal table: labelled boolean columns over a shared row index. -/
abbrev Frame := List (Label × List Bool)

/-- `df.vbt.tile(n)`: the whole column block repeated `n` times. -/
def tileCols : Nat → List α → List α
  | 0, _ => []
  | n + 1, cols => cols ++ tileCols n cols

/-- `df.vbt.repeat(n)`: each column repeated `n` times in place. -/
def repeatCols (n : Nat) : List α → List α
  | [] => []
  | c :: cs => List.replicate n c ++ repeatCols n cs

/-- Line 258: `set_names([fname + '_' + n for n in columns.names])` —
the filter's field names, each one prefixed with the filter's source name
and an underscore. -/
def qualifyLabel (fname : Key) (lab : Label) : Label :=
  lab.map (fun p => (fname ++ '_' :: p.1, p.2))

/-- Line 258 applied to a whole frame (values untouched, names qualified). -/
def setQualifiedNames (fname : Key) (f : Frame) : Frame :=
  f.map (fun c => (qualifyLabel fname c.1, c.2))

/-- The columnwise combination of line 259: one filter column AND one
strategy entries column; the result label stacks the filter's (qualified)
label fields before the strategy's. -/
def combineEntriesCol (fc ec : Label × List Bool) : Label × List Bool :=
  (fc.1 ++ ec.1, List.zipWith and fc.2 ec.2)

/-- A diagnostic bundle: category name → artifact name → figure. -/
abbrev FigBundle (φ : Type) := List (Key × List (Key × φ))

/-- The category key `figures`. -/
def catFigures : Key := ['f', 'i', 'g', 'u', 'r', 'e', 's']

/-- The category key `overlaps`. -/
def catOverlaps : Key := ['o', 'v', 'e', 'r', 'l', 'a', 'p', 's']

/-- `fig_data[cat][k] = v`: update the nested dict of one category. -/
def catUpdate (cat k : Key) (v : φ) (fd : FigBundle φ) : FigBundle φ :=
  fd.map (fun p => if p.1 = cat then (p.1, dictInsert k v p.2) else p)

/-- Lines 266-267 / 271-272: `if cat not in fig_data: fig_data[cat] = {}`. -/
def ensureCat (cat : Key) (fd : FigBundle φ) : FigBundle φ :=
  if containsKey cat fd then fd else fd ++ [(cat, [])]

/-- Lines 265-269 (and 270-274): if the filter's bundle has category `cat`,
ensure the output has the category, then write every artifact under the
source-name-qualified key `fname + '_' + name`. -/
def mergeCat (fname cat : Key) (ffigs : FigBundle φ) (fd : FigBundle φ) : FigBundle φ :=
  match aLookup cat ffigs with
  | none => fd
  | some m =>
    m.foldl (fun acc p => catUpdate cat (fname ++ '_' :: p.1) p.2 acc) (ensureCat cat fd)

/-- Lines 263-274: merge one filter's figures (categories `figures` and
`overlaps` only; `filter_figures` may be `None`). -/
def mergeOneFilter (fname : Key) (offigs : Option (FigBundle φ)) (fd : FigBundle φ) :
    FigBundle φ :=
  match offigs with
  | none => fd
  | some ffigs => mergeCat fname catOverlaps ffigs (mergeCat fname catFigures ffigs fd)

/-- The body of the `for fname, (filter_df, filter_figures) in filters.items()`
loop of `Strategy._add_filters` (lines 257-274): qualify the filter's column
level names with the filter name (258), AND the tiled filter block with the
repeated entries block (259), replicate the exits block and give it the
entries' columns (260-261), and merge the filter's figures into the bundle
(263-274). -/
def addFilterStep {φ : Type} (acc : Frame × Frame × FigBundle φ)
    (f : Key × Frame × Option (FigBundle φ)) : Frame × Frame × FigBundle φ :=
  let fpref := setQualifiedNames f.1 f.2.1
  let newEntries := List.zipWith combineEntriesCol
    (tileCols acc.1.length fpref) (repeatCols fpref.length acc.1)
  let newExits := List.zipWith (fun ec xc => (ec.1, xc.2))
    newEntries (repeatCols fpref.length acc.2.1)
  (newEntries, newExits, mergeOneFilter f.1 f.2.2 acc.2.2)

/-- `Strategy._add_filters` (lines 232-276): fold the loop body over the
filter dict (Python dicts iterate in insertion order). -/
def _add_filters {φ : Type} (entries exits : Frame) (fig_data : FigBundle φ)
    (filters : List (Key × Frame × Option (FigBundle φ))) :
    Frame × Frame × FigBundle φ :=
  filters.foldl addFilterStep (entries, exits, fig_data)

/-! ### Column indexing of the tiled/repeated product -/

theorem tileCols_length (m : Nat) (l : List α) : (tileCols m l).length = m * l.length := by
  induction m with
  | zero => simp [tileCols]
  | succ m ih =>
    simp only [tileCols, List.length_append, ih, Nat.succ_mul]
    omega

theorem repeatCols_length (n : Nat) (l : List α) : (repeatCols n l).length = l.length * n := by
  induction l with
  | nil => simp [repeatCols]
  | cons c cs ih =>
    simp only [repeatCols, List.length_append, List.length_replicate, ih,
      List.length_cons, Nat.succ_mul]
    omega

theorem setQualifiedNames_length (fname : Key) (f : Frame) :
    (setQualifiedNames fname f).length = f.length := by
  simp [setQualifiedNames]

theorem getElem?_tileCols (m : Nat) (l : List α) (i j : Nat) (hj : j < l.length)
    (hi : i < m) :
    (tileCols m l)[i * l.length + j]? = l[j]? := by
  induction m generalizing i with
  | zero => omega
  | succ m ih =>
    cases i with
    | zero =>
      simp only [tileCols, Nat.zero_mul, Nat.zero_add, List.getElem?_append]
      rw [if_pos hj]
    | succ i =>
      simp only [tileCols, List.getElem?_append]
      rw [if_neg (by rw [Nat.succ_mul]; omega)]
      have harith : (i + 1) * l.length + j - l.length = i * l.length + j := by
        rw [Nat.succ_mul]; omega
      rw [harith]
      exact ih i (by omega)

theorem getElem?_repeatCols (n : Nat) (l : List α) (i j : Nat) (hj : j < n) :
    (repeatCols n l)[i * n + j]? = l[i]? := by
  induction l generalizing i with
  | nil => simp [repeatCols]
  | cons c cs ih =>
    cases i with
    | zero =>
      simp only [repeatCols, Nat.zero_mul, Nat.zero_add, List.getElem?_append,
        List.length_replicate]
      rw [if_pos hj, List.getElem?_replicate, if_pos hj]
      simp
    | succ i =>
      simp only [repeatCols, List.getElem?_append, List.length_replicate]
      rw [if_neg (by rw [Nat.succ_mul]; omega)]
      have harith : (i + 1) * n + j - n = i * n + j := by
        rw [Nat.succ_mul]; omega
      rw [harith, ih i]
      simp

theorem getElem?_zipWith' (f : α → β → γ) (as : List α) (bs : List β) (k : Nat) :
    (List.zipWith f as bs)[k]? = (as[k]?).bind (fun a => (bs[k]?).map (f a)) := by
  induction as generalizing bs k with
  | nil => simp
  | cons a as ih =>
    cases bs with
    | nil => simp
    | cons b bs =>
      cases k with
      | zero => simp
      | succ k => simpa using ih bs k

theorem zipWith_and_comm (a b : List Bool) :
    List.zipWith and a b = List.zipWith and b a :=
  List.zipWith_comm_of_comm and Bool.and_comm a b

/-- C3: composing a `p`-column entries/exits pair with a `q`-column filter
table through the loop body of `Strategy._add_filters` yields exactly
`p × q` output columns, one per (strategy-variant, filter-variant) pair:
at position `i*q + j` the output entries column is the elementwise logical
AND of strategy entries column `i` and filter column `j`, and the output
exits column is strategy exits column `i` replicated unchanged (exits are
not intersected with the filter) under the entries' column label. -/
theorem add_filters_product_columns {φ : Type} (fname : Key) (fdf : Frame)
    (ffigs : Option (FigBundle φ)) (entries exits : Frame) (fig_data : FigBundle φ)
    (hx : exits.length = entries.length) :
    ((_add_filters entries exits fig_data [(fname, fdf, ffigs)]).1.length =
      entries.length * fdf.length) ∧
    ((_add_filters entries exits fig_data [(fname, fdf, ffigs)]).2.1.length =
      entries.length * fdf.length) ∧
    ∀ i j ei fj xi, i < entries.length → j < fdf.length →
      entries[i]? = some ei → fdf[j]? = some fj → exits[i]? = some xi →
      (((_add_filters entries exits fig_data [(fname, fdf, ffigs)]).1[i * fdf.length + j]?).map
          Prod.snd = some (List.zipWith and ei.2 fj.2)) ∧
      (((_add_filters entries exits fig_data
          [(fname, fdf, ffigs)]).2.1[i * fdf.length + j]?).map
          Prod.snd = some xi.2) ∧
      (((_add_filters entries exits fig_data
          [(fname, fdf, ffigs)]).2.1[i * fdf.length + j]?).map
          Prod.fst =
        ((_add_filters entries exits fig_data
          [(fname, fdf, ffigs)]).1[i * fdf.length + j]?).map
          Prod.fst) := by
  have hq : (setQualifiedNames fname fdf).length = fdf.length :=
    setQualifiedNames_length fname fdf
  have hE : (_add_filters entries exits fig_data [(fname, fdf, ffigs)]).1 =
      List.zipWith combineEntriesCol
        (tileCols entries.length (setQualifiedNames fname fdf))
        (repeatCols (setQualifiedNames fname fdf).length entries) := rfl
  have hX : (_add_filters entries exits fig_data [(fname, fdf, ffigs)]).2.1 =
      List.zipWith (fun ec xc => (ec.1, xc.2))
        (List.zipWith combineEntriesCol
          (tileCols entries.length (setQualifiedNames fname fdf))
          (repeatCols (setQualifiedNames fname fdf).length entries))
        (repeatCols (setQualifiedNames fname fdf).length exits) := rfl
  refine ⟨?_, ?_, ?_⟩
  · rw [hE, List.length_zipWith, tileCols_length, repeatCols_length, hq]
    exact min_self _
  · rw [hX, List.length_zipWith, List.length_zipWith, tileCols_length,
      repeatCols_length, repeatCols_length, hq, hx]
    simp
  · intro i j ei fj xi hi hj hei hfj hxi
    have hj' : j < (setQualifiedNames fname fdf).length := by rw [hq]; exact hj
    have hk : i * fdf.length + j = i * (setQualifiedNames fname fdf).length + j := by
      rw [hq]
    have hfj' : (setQualifiedNames fname fdf)[j]? =
        some (qualifyLabel fname fj.1, fj.2) := by
      rw [setQualifiedNames, List.getElem?_map, hfj]
      rfl
    have hEk : (_add_filters entries exits fig_data
        [(fname, fdf, ffigs)]).1[i * fdf.length + j]? =
        some (combineEntriesCol (qualifyLabel fname fj.1, fj.2) ei) := by
      rw [hE, hk, getElem?_zipWith',
        getElem?_tileCols entries.length (setQualifiedNames fname fdf) i j hj' hi,
        getElem?_repeatCols (setQualifiedNames fname fdf).length entries i j hj',
        hfj', hei]
      rfl
    have hXk : (_add_filters entries exits fig_data
        [(fname, fdf, ffigs)]).2.1[i * fdf.length + j]? =
        some ((combineEntriesCol (qualifyLabel fname fj.1, fj.2) ei).1, xi.2) := by
      have hEk' : (List.zipWith combineEntriesCol
          (tileCols entries.length (setQualifiedNames fname fdf))
          (repeatCols (setQualifiedNames fname fdf).length
            entries))[i * fdf.length + j]? =
          some (combineEntriesCol (qualifyLabel fname fj.1, fj.2) ei) := by
        rw [← hE]; exact hEk
      rw [hX, getElem?_zipWith', hEk', hk,
        getElem?_repeatCols (setQualifiedNames fname fdf).length exits i j hj', hxi]
      rfl
    refine ⟨?_, ?_, ?_⟩
    · rw [hEk]
      simp only [combineEntriesCol, Option.map_some']
      rw [zipWith_and_comm]
    · rw [hXk]
      rfl
    · rw [hXk, hEk]
      rfl

/-- Helper: the output entries column of the single-filter composition at
position `i*q + j` is the combination of filter column `j` (label
qualified) with entries column `i`. -/
theorem add_filters_entry_col {φ : Type} (fname : Key) (fdf : Frame)
    (ffigs : Option (FigBundle φ)) (entries exits : Frame) (fig_data : FigBundle φ)
    (i j : Nat) (ei fj : Label × List Bool) (hi : i < entries.length)
    (hj : j < fdf.length) (hei : entries[i]? = some ei) (hfj : fdf[j]? = some fj) :
    (_add_filters entries exits fig_data
        [(fname, fdf, ffigs)]).1[i * fdf.length + j]? =
      some (combineEntriesCol (qualifyLabel fname fj.1, fj.2) ei) := by
  have hq : (setQualifiedNames fname fdf).length = fdf.length :=
    setQualifiedNames_length fname fdf
  have hj' : j < (setQualifiedNames fname fdf).length := by rw [hq]; exact hj
  have hk : i * fdf.length + j = i * (setQualifiedNames fname fdf).length + j := by
    rw [hq]
  have hfj' : (setQualifiedNames fname fdf)[j]? =
      some (qualifyLabel fname fj.1, fj.2) := by
    rw [setQualifiedNames, List.getElem?_map, hfj]
    rfl
  have hE : (_add_filters entries exits fig_data [(fname, fdf, ffigs)]).1 =
      List.zipWith combineEntriesCol
        (tileCols entries.length (setQualifiedNames fname fdf))
        (repeatCols (setQualifiedNames fname fdf).length entries) := rfl
  rw [hE, hk, getElem?_zipWith',
    getElem?_tileCols entries.length (setQualifiedNames fname fdf) i j hj' hi,
    getElem?_repeatCols (setQualifiedNames fname fdf).length entries i j hj',
    hfj', hei]
  rfl

theorem qualifyLabel_injective (fname : Key) :
    Function.Injective (qualifyLabel fname) := by
  apply List.map_injective_iff.mpr
  intro p q h
  rw [Prod.mk.injEq] at h
  obtain ⟨h1, h2⟩ := h
  have h3 : '_' :: p.1 = '_' :: q.1 := List.append_cancel_left h1
  have h4 : p.1 = q.1 := by injection h3
  exact Prod.ext h4 h2

theorem qualifyLabel_length (fname : Key) (lab : Label) :
    (qualifyLabel fname lab).length = lab.length := by
  simp [qualifyLabel]

/-- C4: after composition every output column's provenance label is the
concatenation of the filter's label — its field names prefixed with the
filter's source name — with the strategy's label; and when the inputs'
labels are each distinct (and the filter's labels have a common width),
no two distinct output columns carry the same label, even when the two
sources reuse a field name. -/
theorem add_filters_provenance_labels {φ : Type} (fname : Key) (fdf : Frame)
    (ffigs : Option (FigBundle φ)) (entries exits : Frame) (fig_data : FigBundle φ)
    (L : Nat) (hL : ∀ fj ∈ fdf, (fj : Label × List Bool).1.length = L)
    (hfI : ∀ (j j' : Nat) fj fj', fdf[j]? = some fj → fdf[j']? = some fj' →
      fj.1 = fj'.1 → j = j')
    (heI : ∀ (i i' : Nat) ei ei', entries[i]? = some ei → entries[i']? = some ei' →
      ei.1 = ei'.1 → i = i') :
    (∀ i j ei fj, i < entries.length → j < fdf.length →
      entries[i]? = some ei → fdf[j]? = some fj →
      ((_add_filters entries exits fig_data
          [(fname, fdf, ffigs)]).1[i * fdf.length + j]?).map Prod.fst =
        some (qualifyLabel fname fj.1 ++ ei.1)) ∧
    (∀ i j i' j', i < entries.length → j < fdf.length →
      i' < entries.length → j' < fdf.length →
      ((_add_filters entries exits fig_data
          [(fname, fdf, ffigs)]).1[i * fdf.length + j]?).map Prod.fst =
        ((_add_filters entries exits fig_data
          [(fname, fdf, ffigs)]).1[i' * fdf.length + j']?).map Prod.fst →
      i = i' ∧ j = j') := by
  constructor
  · intro i j ei fj hi hj hei hfj
    rw [add_filters_entry_col fname fdf ffigs entries exits fig_data i j ei fj
      hi hj hei hfj]
    rfl
  · intro i j i' j' hi hj hi' hj' heq
    have hei := List.getElem?_eq_getElem hi
    have hei' := List.getElem?_eq_getElem hi'
    have hfj := List.getElem?_eq_getElem hj
    have hfj' := List.getElem?_eq_getElem hj'
    rw [add_filters_entry_col fname fdf ffigs entries exits fig_data i j _ _
        hi hj hei hfj,
      add_filters_entry_col fname fdf ffigs entries exits fig_data i' j' _ _
        hi' hj' hei' hfj'] at heq
    simp only [Option.map_some', combineEntriesCol] at heq
    have hlen : (qualifyLabel fname fdf[j].1).length =
        (qualifyLabel fname fdf[j'].1).length := by
      rw [qualifyLabel_length, qualifyLabel_length,
        hL fdf[j] (List.getElem_mem hj), hL fdf[j'] (List.getElem_mem hj')]
    obtain ⟨hqeq, heeq⟩ := List.append_inj (Option.some.inj heq) hlen
    constructor
    · exact heI i i' entries[i] entries[i'] hei hei' heeq
    · exact hfI j j' fdf[j] fdf[j'] hfj hfj'
        (qualifyLabel_injective fname hqeq)

/-! ### Concrete composition fixtures: a 2-variant strategy crossed with a
2-variant filter named `mmi`; both sources deliberately reuse the field
name `t`. -/

/-- Concrete filter source name `mmi`. -/
def fixFname : Key := ['m', 'm', 'i']

/-- Concrete 2-column filter table with field name `t`. -/
def fixFilter : Frame :=
  [([( ['t'], PyVal.int 10 )], [true, true]),
   ([( ['t'], PyVal.int 20 )], [false, true])]

/-- Concrete 2-column strategy entries table, also using field name `t`. -/
def fixEntries : Frame :=
  [([( ['t'], PyVal.int 1 )], [true, false]),
   ([( ['t'], PyVal.int 2 )], [true, true])]

/-- Concrete strategy exits table aligned with `fixEntries`. -/
def fixExits : Frame :=
  [([( ['t'], PyVal.int 1 )], [false, true]),
   ([( ['t'], PyVal.int 2 )], [false, false])]

/-- C3 (witness): on the concrete 2×2 fixture the composition has 4
columns, and at position `1*2+0` the entries column is
`[true,true] AND [true,true]` while the exits column is strategy exits
column 1 unchanged. -/
theorem add_filters_product_columns_witness :
    ((_add_filters fixEntries fixExits ([] : FigBundle Nat)
        [(fixFname, fixFilter, none)]).1.length = 4) ∧
    (((_add_filters fixEntries fixExits ([] : FigBundle Nat)
        [(fixFname, fixFilter, none)]).1[2]?).map Prod.snd = some [true, true]) ∧
    (((_add_filters fixEntries fixExits ([] : FigBundle Nat)
        [(fixFname, fixFilter, none)]).2.1[2]?).map Prod.snd = some [false, false]) := by
  have h := add_filters_product_columns (φ := Nat) fixFname fixFilter none
    fixEntries fixExits [] rfl
  have h3 := h.2.2 1 0 _ _ _ (by decide) (by decide) rfl rfl rfl
  exact ⟨h.1, h3.1, h3.2.1⟩

/-- Helper: in a frame whose labels are pairwise distinct, the label
determines the column position. -/
theorem label_index_inj {l : Frame} (h : (l.map Prod.fst).Nodup) (j j' : Nat)
    (fj fj' : Label × List Bool) (hj : l[j]? = some fj) (hj' : l[j']? = some fj')
    (he : fj.1 = fj'.1) : j = j' := by
  have hjl : j < l.length := by
    by_contra hge
    rw [List.getElem?_eq_none (by omega)] at hj
    exact Option.noConfusion hj
  have hjl' : j' < l.length := by
    by_contra hge
    rw [List.getElem?_eq_none (by omega)] at hj'
    exact Option.noConfusion hj'
  have hfj : l[j] = fj :=
    Option.some.inj ((List.getElem?_eq_getElem hjl).symm.trans hj)
  have hfj' : l[j'] = fj' :=
    Option.some.inj ((List.getElem?_eq_getElem hjl').symm.trans hj')
  have hjm : j < (l.map Prod.fst).length := by simpa using hjl
  have hjm' : j' < (l.map Prod.fst).length := by simpa using hjl'
  have hm : (l.map Prod.fst)[j] = (l.map Prod.fst)[j'] := by
    simp only [List.getElem_map]
    rw [hfj, hfj']
    exact he
  exact (List.Nodup.getElem_inj_iff h).mp hm

/-- C4 (witness): on the concrete fixture — both sources using field name
`t` — the provenance-label theorem applies: the column at position `1*2+0`
is labelled `mmi_t = 10, t = 2`, and the label-distinctness part is
applicable with all hypotheses discharged. -/
theorem add_filters_provenance_labels_witness :
    (((_add_filters fixEntries fixExits ([] : FigBundle Nat)
        [(fixFname, fixFilter, none)]).1[2]?).map Prod.fst =
      some (qualifyLabel fixFname [( ['t'], PyVal.int 10 )] ++
        [( ['t'], PyVal.int 2 )])) ∧
    (1 = 1 ∧ 0 = 0) := by
  have h := add_filters_provenance_labels (φ := Nat) fixFname fixFilter none
    fixEntries fixExits [] 1 (by decide)
    (label_index_inj (l := fixFilter) (by decide))
    (label_index_inj (l := fixEntries) (by decide))
  exact ⟨h.1 1 0 _ _ (by decide) (by decide) rfl rfl,
    h.2 1 0 1 0 (by decide) (by decide) (by decide) (by decide) rfl⟩

/-! ### Figure-bundle merging (C5): association-list lemmas -/

/-- `fig_data[cat][k]` as one nested lookup. -/
def figLookup (cat k : Key) (fd : FigBundle φ) : Option φ :=
  (aLookup cat fd).bind (aLookup k)

theorem aLookup_append (k : Key) (d1 d2 : List (Key × α)) :
    aLookup k (d1 ++ d2) =
      match aLookup k d1 with
      | some v => some v
      | none => aLookup k d2 := by
  induction d1 with
  | nil => rfl
  | cons p rest ih =>
    by_cases hp : p.1 = k
    · simp [aLookup, hp]
    · simp [aLookup, hp, ih]

theorem aLookup_eq_none_of_not_contains {k : Key} {d : List (Key × α)}
    (h : containsKey k d = false) : aLookup k d = none := by
  induction d with
  | nil => rfl
  | cons p rest ih =>
    simp only [containsKey, Bool.or_eq_false_iff, decide_eq_false_iff_not] at h
    simp only [aLookup, if_neg h.1]
    exact ih h.2

theorem aLookup_some_of_contains {k : Key} {d : List (Key × α)}
    (h : containsKey k d = true) : ∃ v, aLookup k d = some v := by
  induction d with
  | nil => simp [containsKey] at h
  | cons p rest ih =>
    by_cases hp : p.1 = k
    · exact ⟨p.2, by simp [aLookup, hp]⟩
    · simp only [containsKey, Bool.or_eq_true, decide_eq_true_eq] at h
      rcases h with h | h
      · exact absurd h hp
      · obtain ⟨v, hv⟩ := ih h
        exact ⟨v, by simp [aLookup, hp, hv]⟩

theorem aLookup_map_update_self (k : Key) (v : α) (d : List (Key × α))
    (hc : containsKey k d = true) :
    aLookup k (d.map (fun p => if p.1 = k then (k, v) else p)) = some v := by
  induction d with
  | nil => simp [containsKey] at hc
  | cons p rest ih =>
    by_cases hp : p.1 = k
    · simp [aLookup, hp]
    · simp only [containsKey, Bool.or_eq_true, decide_eq_true_eq] at hc
      rcases hc with hc | hc
      · exact absurd hc hp
      · simp only [List.map_cons, if_neg hp, aLookup, if_neg hp]
        exact ih hc

theorem aLookup_map_update_ne (k k' : Key) (v : α) (d : List (Key × α))
    (h : ¬ (k' = k)) :
    aLookup k' (d.map (fun p => if p.1 = k then (k, v) else p)) = aLookup k' d := by
  induction d with
  | nil => rfl
  | cons p rest ih =>
    by_cases hp : p.1 = k
    · have hpk : ¬ (p.1 = k') := fun he => h (he ▸ hp ▸ rfl)
      simp only [List.map_cons, if_pos hp, aLookup,
        if_neg (fun he : k = k' => h he.symm), if_neg hpk, ih]
    · by_cases hp' : p.1 = k'
      · simp only [List.map_cons, if_neg hp, aLookup, if_pos hp']
      · simp only [List.map_cons, if_neg hp, aLookup, if_neg hp', ih]

theorem aLookup_dictInsert_self (k : Key) (v : α) (d : List (Key × α)) :
    aLookup k (dictInsert k v d) = some v := by
  rw [dictInsert]
  by_cases hc : containsKey k d = true
  · rw [if_pos hc]
    exact aLookup_map_update_self k v d hc
  · rw [if_neg hc, aLookup_append,
      aLookup_eq_none_of_not_contains (Bool.eq_false_iff.mpr hc)]
    simp [aLookup]

theorem aLookup_dictInsert_ne (k k' : Key) (v : α) (d : List (Key × α))
    (h : ¬ (k' = k)) : aLookup k' (dictInsert k v d) = aLookup k' d := by
  rw [dictInsert]
  by_cases hc : containsKey k d = true
  · rw [if_pos hc]
    exact aLookup_map_update_ne k k' v d h
  · rw [if_neg hc, aLookup_append]
    cases hl : aLookup k' d with
    | some w => rfl
    | none =>
      simp only [aLookup, if_neg (fun he : k = k' => h he.symm)]

theorem aLookup_catUpdate_self (cat k : Key) (v : φ) (fd : FigBundle φ) :
    aLookup cat (catUpdate cat k v fd) = (aLookup cat fd).map (dictInsert k v) := by
  induction fd with
  | nil => rfl
  | cons p rest ih =>
    by_cases hp : p.1 = cat
    · simp only [catUpdate, List.map_cons, if_pos hp, aLookup, if_pos hp,
        Option.map_some']
    · simp only [catUpdate, List.map_cons, if_neg hp, aLookup, if_neg hp]
      simpa [catUpdate] using ih

theorem aLookup_catUpdate_ne (cat cat' k : Key) (v : φ) (fd : FigBundle φ)
    (h : ¬ (cat' = cat)) :
    aLookup cat' (catUpdate cat k v fd) = aLookup cat' fd := by
  induction fd with
  | nil => rfl
  | cons p rest ih =>
    by_cases hp : p.1 = cat
    · have hpk : ¬ (p.1 = cat') := fun he => h (he ▸ hp ▸ rfl)
      simp only [catUpdate, List.map_cons, if_pos hp, aLookup, if_neg hpk]
      simpa [catUpdate] using ih
    · by_cases hp' : p.1 = cat'
      · simp only [catUpdate, List.map_cons, if_neg hp, aLookup, if_pos hp']
      · simp only [catUpdate, List.map_cons, if_neg hp, aLookup, if_neg hp']
        simpa [catUpdate] using ih

theorem aLookup_ensureCat_self (cat : Key) (fd : FigBundle φ) :
    aLookup cat (ensureCat cat fd) = some ((aLookup cat fd).getD []) := by
  rw [ensureCat]
  by_cases hc : containsKey cat fd = true
  · rw [if_pos hc]
    obtain ⟨v, hv⟩ := aLookup_some_of_contains hc
    rw [hv]
    rfl
  · rw [if_neg hc, aLookup_append,
      aLookup_eq_none_of_not_contains (Bool.eq_false_iff.mpr hc)]
    simp [aLookup]

theorem aLookup_ensureCat_ne (cat cat' : Key) (fd : FigBundle φ)
    (h : ¬ (cat' = cat)) :
    aLookup cat' (ensureCat cat fd) = aLookup cat' fd := by
  rw [ensureCat]
  by_cases hc : containsKey cat fd = true
  · rw [if_pos hc]
  · rw [if_neg hc, aLookup_append]
    cases hl : aLookup cat' fd with
    | some w => rfl
    | none => simp only [aLookup, if_neg (fun he : cat = cat' => h he.symm)]

theorem aLookup_foldl_catUpdate (cat : Key) (g : Key → Key) (m : List (Key × φ)) :
    ∀ (fd : FigBundle φ) (d0 : List (Key × φ)), aLookup cat fd = some d0 →
      aLookup cat (m.foldl (fun acc p => catUpdate cat (g p.1) p.2 acc) fd) =
        some (m.foldl (fun dd p => dictInsert (g p.1) p.2 dd) d0) := by
  induction m with
  | nil => intro fd d0 h; simpa using h
  | cons p m ih =>
    intro fd d0 h
    simp only [List.foldl_cons]
    exact ih _ _ (by rw [aLookup_catUpdate_self, h]; rfl)

theorem aLookup_foldl_catUpdate_ne (cat cat' : Key) (g : Key → Key)
    (m : List (Key × φ)) (h : ¬ (cat' = cat)) :
    ∀ fd : FigBundle φ,
      aLookup cat' (m.foldl (fun acc p => catUpdate cat (g p.1) p.2 acc) fd) =
        aLookup cat' fd := by
  induction m with
  | nil => intro fd; rfl
  | cons p m ih =>
    intro fd
    simp only [List.foldl_cons]
    rw [ih _, aLookup_catUpdate_ne cat cat' (g p.1) p.2 fd h]

theorem aLookup_mergeCat_self (fname cat : Key) (ffigs fd : FigBundle φ) :
    aLookup cat (mergeCat fname cat ffigs fd) =
      match aLookup cat ffigs with
      | none => aLookup cat fd
      | some m =>
        some (m.foldl (fun dd p => dictInsert (fname ++ '_' :: p.1) p.2 dd)
          ((aLookup cat fd).getD [])) := by
  cases hm : aLookup cat ffigs with
  | none => simp only [mergeCat, hm]
  | some m =>
    simp only [mergeCat, hm]
    exact aLookup_foldl_catUpdate cat (fun nm => fname ++ '_' :: nm) m
      (ensureCat cat fd) _ (aLookup_ensureCat_self cat fd)

theorem aLookup_mergeCat_ne (fname cat cat' : Key) (ffigs fd : FigBundle φ)
    (h : ¬ (cat' = cat)) :
    aLookup cat' (mergeCat fname cat ffigs fd) = aLookup cat' fd := by
  cases hm : aLookup cat ffigs with
  | none => simp only [mergeCat, hm]
  | some m =>
    simp only [mergeCat, hm]
    rw [aLookup_foldl_catUpdate_ne cat cat' (fun nm => fname ++ '_' :: nm) m h,
      aLookup_ensureCat_ne cat cat' fd h]

theorem aLookup_foldl_dictInsert_notin (g : Key → Key) (m : List (Key × φ)) (k : Key) :
    ∀ d : List (Key × φ), (∀ p ∈ m, ¬ (g p.1 = k)) →
      aLookup k (m.foldl (fun dd p => dictInsert (g p.1) p.2 dd) d) = aLookup k d := by
  induction m with
  | nil => intro d _; rfl
  | cons p m ih =>
    intro d h
    simp only [List.foldl_cons]
    rw [ih _ (fun q hq => h q (List.mem_cons.mpr (Or.inr hq))),
      aLookup_dictInsert_ne (g p.1) k p.2 d
        (fun he => h p (List.mem_cons.mpr (Or.inl rfl)) he.symm)]

theorem aLookup_foldl_dictInsert_mem (g : Key → Key) (m : List (Key × φ))
    (name : Key) (v : φ) (hnd : (m.map (fun p => g p.1)).Nodup)
    (hmem : (name, v) ∈ m) :
    ∀ d : List (Key × φ),
      aLookup (g name) (m.foldl (fun dd p => dictInsert (g p.1) p.2 dd) d) = some v := by
  induction m with
  | nil => cases hmem
  | cons p m ih =>
    intro d
    simp only [List.map_cons, List.nodup_cons] at hnd
    obtain ⟨hnotin, hnd'⟩ := hnd
    simp only [List.foldl_cons]
    rcases List.mem_cons.mp hmem with he | hm
    · have hp1 : p.1 = name := by rw [← he]
      have hp2 : p.2 = v := by rw [← he]
      have hno : ∀ q ∈ m, ¬ (g q.1 = g name) := by
        intro q hq hgq
        apply hnotin
        rw [hp1, ← hgq]
        exact List.mem_map_of_mem (fun r => g r.1) hq
      rw [aLookup_foldl_dictInsert_notin g m (g name) _ hno, hp1, hp2]
      exact aLookup_dictInsert_self (g name) v d
    · exact ih hnd' hm _

/-- The source-name-qualified keys a filter writes into one category. -/
def catWrites (fname cat : Key) (offigs : Option (FigBundle φ)) : List Key :=
  match offigs with
  | none => []
  | some ffigs => ((aLookup cat ffigs).getD []).map (fun p => fname ++ '_' :: p.1)

/-- All `(category, qualified key)` pairs one filter writes. -/
def oneFilterWrites (fname : Key) (offigs : Option (FigBundle φ)) : List (Key × Key) :=
  (catWrites fname catFigures offigs).map (fun k => (catFigures, k)) ++
    (catWrites fname catOverlaps offigs).map (fun k => (catOverlaps, k))

/-- All `(category, qualified key)` pairs written over a filter list, in
processing order. -/
def filterWrites : List (Key × Frame × Option (FigBundle φ)) → List (Key × Key)
  | [] => []
  | f :: fs => oneFilterWrites f.1 f.2.2 ++ filterWrites fs

/-- The figure-merging part of `_add_filters` in isolation. -/
def mergeFilters (filters : List (Key × Frame × Option (FigBundle φ)))
    (fd : FigBundle φ) : FigBundle φ :=
  filters.foldl (fun acc f => mergeOneFilter f.1 f.2.2 acc) fd

theorem add_filters_figdata_eq {φ : Type} :
    ∀ (filters : List (Key × Frame × Option (FigBundle φ)))
      (entries exits : Frame) (fd : FigBundle φ),
      (_add_filters entries exits fd filters).2.2 = mergeFilters filters fd := by
  intro filters
  induction filters with
  | nil => intro entries exits fd; rfl
  | cons f fs ih =>
    intro entries exits fd
    exact ih _ _ _

theorem figLookup_mergeCat_notin (fname cat0 : Key) (ffigs fd : FigBundle φ)
    (cat k : Key)
    (h : cat = cat0 → ∀ m, aLookup cat0 ffigs = some m →
      ∀ p ∈ m, ¬ (fname ++ '_' :: p.1 = k)) :
    figLookup cat k (mergeCat fname cat0 ffigs fd) = figLookup cat k fd := by
  by_cases hcat : cat = cat0
  · subst hcat
    rw [figLookup, figLookup, aLookup_mergeCat_self]
    cases hm : aLookup cat ffigs with
    | none => rfl
    | some m =>
      simp only [Option.some_bind]
      rw [aLookup_foldl_dictInsert_notin (fun nm => fname ++ '_' :: nm) m k _
        (fun p hp => h rfl m hm p hp)]
      cases hfd : aLookup cat fd with
      | none => rfl
      | some d => rfl
  · rw [figLookup, figLookup, aLookup_mergeCat_ne fname cat0 cat ffigs fd hcat]

theorem figLookup_mergeOneFilter_notin (fname : Key) (offigs : Option (FigBundle φ))
    (fd : FigBundle φ) (cat k : Key)
    (h : (cat, k) ∉ oneFilterWrites fname offigs) :
    figLookup cat k (mergeOneFilter fname offigs fd) = figLookup cat k fd := by
  cases offigs with
  | none => rfl
  | some ffigs =>
    show figLookup cat k
      (mergeCat fname catOverlaps ffigs (mergeCat fname catFigures ffigs fd)) =
        figLookup cat k fd
    rw [figLookup_mergeCat_notin fname catOverlaps ffigs _ cat k ?hov,
      figLookup_mergeCat_notin fname catFigures ffigs fd cat k ?hfig]
    case hov =>
      intro hc m hm p hp he
      apply h
      rw [oneFilterWrites, List.mem_append]
      refine Or.inr ?_
      rw [hc, ← he]
      exact List.mem_map_of_mem _ (by
        rw [catWrites, hm]
        exact List.mem_map_of_mem _ hp)
    case hfig =>
      intro hc m hm p hp he
      apply h
      rw [oneFilterWrites, List.mem_append]
      refine Or.inl ?_
      rw [hc, ← he]
      exact List.mem_map_of_mem _ (by
        rw [catWrites, hm]
        exact List.mem_map_of_mem _ hp)

theorem figLookup_mergeFilters_notin :
    ∀ (filters : List (Key × Frame × Option (FigBundle φ))) (fd : FigBundle φ)
      (cat k : Key), (cat, k) ∉ filterWrites filters →
      figLookup cat k (mergeFilters filters fd) = figLookup cat k fd := by
  intro filters
  induction filters with
  | nil => intro fd cat k _; rfl
  | cons f fs ih =>
    intro fd cat k h
    rw [filterWrites, List.mem_append] at h
    push_neg at h
    show figLookup cat k (mergeFilters fs (mergeOneFilter f.1 f.2.2 fd)) = _
    rw [ih _ cat k h.2, figLookup_mergeOneFilter_notin f.1 f.2.2 fd cat k h.1]

theorem figLookup_mergeOneFilter_mem (fname : Key) (ffigs fd : FigBundle φ)
    (cat : Key) (hcat : cat = catFigures ∨ cat = catOverlaps)
    (m : List (Key × φ)) (hm : aLookup cat ffigs = some m)
    (hnd : (m.map (fun p => fname ++ '_' :: p.1)).Nodup)
    (name : Key) (v : φ) (hmem : (name, v) ∈ m) :
    figLookup cat (fname ++ '_' :: name) (mergeOneFilter fname (some ffigs) fd) =
      some v := by
  have hland : ∀ fd' : FigBundle φ,
      figLookup cat (fname ++ '_' :: name) (mergeCat fname cat ffigs fd') = some v := by
    intro fd'
    rw [figLookup, aLookup_mergeCat_self]
    simp only [hm, Option.some_bind]
    exact aLookup_foldl_dictInsert_mem (fun nm => fname ++ '_' :: nm) m name v
      hnd hmem _
  rcases hcat with hf | ho
  · subst hf
    show figLookup catFigures (fname ++ '_' :: name)
      (mergeCat fname catOverlaps ffigs (mergeCat fname catFigures ffigs fd)) =
        some v
    rw [figLookup, aLookup_mergeCat_ne fname catOverlaps catFigures ffigs _
      (by decide)]
    exact hland fd
  · subst ho
    exact hland (mergeCat fname catFigures ffigs fd)

theorem mem_oneFilterWrites {φ : Type} (fname : Key) (offigs : Option (FigBundle φ))
    (ffigs : FigBundle φ) (hff : offigs = some ffigs) (cat : Key)
    (hcat : cat = catFigures ∨ cat = catOverlaps) (m : List (Key × φ))
    (hm : aLookup cat ffigs = some m) (p : Key × φ) (hp : p ∈ m) :
    (cat, fname ++ '_' :: p.1) ∈ oneFilterWrites fname offigs := by
  subst hff
  rw [oneFilterWrites, List.mem_append]
  rcases hcat with hc | hc
  · subst hc
    refine Or.inl (List.mem_map_of_mem _ ?_)
    rw [catWrites, hm]
    exact List.mem_map_of_mem _ hp
  · subst hc
    refine Or.inr (List.mem_map_of_mem _ ?_)
    rw [catWrites, hm]
    exact List.mem_map_of_mem _ hp

theorem nodup_qual_of_writes {φ : Type} (fname : Key) (offigs : Option (FigBundle φ))
    (ffigs : FigBundle φ) (hff : offigs = some ffigs) (cat : Key)
    (hcat : cat = catFigures ∨ cat = catOverlaps) (m : List (Key × φ))
    (hm : aLookup cat ffigs = some m)
    (hnd : (oneFilterWrites fname offigs).Nodup) :
    (m.map (fun q => fname ++ '_' :: q.1)).Nodup := by
  subst hff
  rw [oneFilterWrites] at hnd
  rcases hcat with hc | hc
  · subst hc
    have h2 := hnd.of_append_left
    have h3 := List.Nodup.of_map _ h2
    have he : catWrites fname catFigures (some ffigs) =
        m.map (fun q => fname ++ '_' :: q.1) := by
      rw [catWrites, hm]
      rfl
    exact he ▸ h3
  · subst hc
    have h2 := hnd.of_append_right
    have h3 := List.Nodup.of_map _ h2
    have he : catWrites fname catOverlaps (some ffigs) =
        m.map (fun q => fname ++ '_' :: q.1) := by
      rw [catWrites, hm]
      rfl
    exact he ▸ h3

theorem figLookup_mergeFilters_mem {φ : Type} :
    ∀ (filters : List (Key × Frame × Option (FigBundle φ))) (fd : FigBundle φ),
      (filterWrites filters).Nodup →
      ∀ f ∈ filters, ∀ ffigs, f.2.2 = some ffigs →
      ∀ cat, (cat = catFigures ∨ cat = catOverlaps) →
      ∀ m, aLookup cat ffigs = some m →
      ∀ p ∈ m,
        figLookup cat (f.1 ++ '_' :: p.1) (mergeFilters filters fd) = some p.2 := by
  intro filters
  induction filters with
  | nil => intro fd _ f hf; cases hf
  | cons f0 fs ih =>
    intro fd hnd f hf ffigs hff cat hcat m hm p hp
    rw [filterWrites] at hnd
    have hdis := List.disjoint_of_nodup_append hnd
    rcases List.mem_cons.mp hf with he | hf'
    · subst he
      show figLookup cat (f.1 ++ '_' :: p.1)
        (mergeFilters fs (mergeOneFilter f.1 f.2.2 fd)) = some p.2
      have hmemw : (cat, f.1 ++ '_' :: p.1) ∈ oneFilterWrites f.1 f.2.2 :=
        mem_oneFilterWrites f.1 f.2.2 ffigs hff cat hcat m hm p hp
      have hndm : (m.map (fun q => f.1 ++ '_' :: q.1)).Nodup :=
        nodup_qual_of_writes f.1 f.2.2 ffigs hff cat hcat m hm hnd.of_append_left
      rw [figLookup_mergeFilters_notin fs _ cat _ (fun hin => hdis hmemw hin)]
      rw [hff]
      exact figLookup_mergeOneFilter_mem f.1 ffigs fd cat hcat m hm hndm p.1 p.2 hp
    · exact ih (mergeOneFilter f0.1 f0.2.2 fd) hnd.of_append_right f hf' ffigs hff
        cat hcat m hm p hp

/-- C5 (amended): during composition every `figures`/`overlaps`
category/name pair of every filter is re-keyed under the filter's
source-name prefix and written into the output bundle; when the prefixed
`(category, key)` pairs written across the filter list are pairwise
distinct, every pair remains retrievable from the merged bundle.  On a
collision the later write silently overwrites the earlier one — no
`InvalidArgumentError` exists or is raised (see
`merge_figures_collision_overwrites`), and categories other than `figures`
and `overlaps` are dropped. -/
theorem merge_figures_union_of_distinct_keys {φ : Type} (entries exits : Frame)
    (fig_data : FigBundle φ) (filters : List (Key × Frame × Option (FigBundle φ)))
    (hnd : (filterWrites filters).Nodup) :
    ∀ f ∈ filters, ∀ ffigs, f.2.2 = some ffigs →
      ∀ cat, (cat = catFigures ∨ cat = catOverlaps) →
      ∀ m, aLookup cat ffigs = some m →
      ∀ p ∈ m,
        figLookup cat (f.1 ++ '_' :: p.1)
          ((_add_filters entries exits fig_data filters).2.2) = some p.2 := by
  intro f hf ffigs hff cat hcat m hm p hp
  rw [add_filters_figdata_eq]
  exact figLookup_mergeFilters_mem filters fig_data hnd f hf ffigs hff cat hcat
    m hm p hp

/-- C5 (counterexample to the claim as stated): with the two distinct
filter names `a` and `a_b`, the prefixed keys `a + '_' + 'b_c'` and
`a_b + '_' + 'c'` collide on `a_b_c`.  The merge completes normally —
lines 263-274 of `strategy.py` contain no raise at all — and the later
write silently overwrites the earlier one (filter `a`'s figure value `1`
is lost), instead of failing with `InvalidArgumentError`; the category
`tables`, being neither `figures` nor `overlaps`, is silently dropped. -/
theorem merge_figures_collision_overwrites :
    ((_add_filters [] [] ([] : FigBundle Nat)
        [( ['a'], [], some [(catFigures, [( ['b', '_', 'c'], 1 )]),
            (['t', 'a', 'b', 'l', 'e', 's'], [( ['t'], 3 )])] ),
         ( ['a', '_', 'b'], [], some [(catFigures, [( ['c'], 2 )])] )]).2.2 =
      [(catFigures, [( ['a', '_', 'b', '_', 'c'], 2 )])]) ∧
    (figLookup catFigures ['a', '_', 'b', '_', 'c']
        ((_add_filters [] [] ([] : FigBundle Nat)
          [( ['a'], [], some [(catFigures, [( ['b', '_', 'c'], 1 )]),
              (['t', 'a', 'b', 'l', 'e', 's'], [( ['t'], 3 )])] ),
           ( ['a', '_', 'b'], [], some [(catFigures, [( ['c'], 2 )])] )]).2.2) =
      some 2) ∧
    (aLookup ['t', 'a', 'b', 'l', 'e', 's']
        ((_add_filters [] [] ([] : FigBundle Nat)
          [( ['a'], [], some [(catFigures, [( ['b', '_', 'c'], 1 )]),
              (['t', 'a', 'b', 'l', 'e', 's'], [( ['t'], 3 )])] ),
           ( ['a', '_', 'b'], [], some [(catFigures, [( ['c'], 2 )])] )]).2.2) =
      none) := by
  refine ⟨rfl, rfl, rfl⟩

/-- First concrete filter for the merge witness: name `a`, one figure `x`. -/
def fixMF1 : Key × Frame × Option (FigBundle Nat) :=
  ( ['a'], [], some [(catFigures, [( ['x'], 1 )])] )

/-- Second concrete filter for the merge witness: name `b`, figure `x` and
overlap `y`. -/
def fixMF2 : Key × Frame × Option (FigBundle Nat) :=
  ( ['b'], [], some [(catFigures, [( ['x'], 2 )]), (catOverlaps, [( ['y'], 3 )])] )

/-- The two-filter merge fixture with collision-free prefixed keys. -/
def fixMergeFilters : List (Key × Frame × Option (FigBundle Nat)) :=
  [fixMF1, fixMF2]

/-- C5 (witness): with the distinct names `a` and `b` the prefixed keys
`a_x`, `b_x`, `b_y` are pairwise distinct, and every filter's figure is
retrievable from the merged bundle. -/
theorem merge_figures_union_of_distinct_keys_witness :
    (figLookup catFigures ['a', '_', 'x']
      ((_add_filters [] [] ([] : FigBundle Nat) fixMergeFilters).2.2) = some 1) ∧
    (figLookup catFigures ['b', '_', 'x']
      ((_add_filters [] [] ([] : FigBundle Nat) fixMergeFilters).2.2) = some 2) ∧
    (figLookup catOverlaps ['b', '_', 'y']
      ((_add_filters [] [] ([] : FigBundle Nat) fixMergeFilters).2.2) = some 3) := by
  have h := merge_figures_union_of_distinct_keys (φ := Nat) [] [] [] fixMergeFilters
    (by decide)
  exact ⟨h fixMF1 (by decide) [(catFigures, [( ['x'], 1 )])] rfl catFigures
      (Or.inl rfl) [( ['x'], 1 )] rfl (['x'], 1) (by decide),
    h fixMF2 (by decide) [(catFigures, [( ['x'], 2 )]), (catOverlaps, [( ['y'], 3 )])]
      rfl catFigures (Or.inl rfl) [( ['x'], 2 )] rfl (['x'], 2) (by decide),
    h fixMF2 (by decide) [(catFigures, [( ['x'], 2 )]), (catOverlaps, [( ['y'], 3 )])]
      rfl catOverlaps (Or.inr rfl) [( ['y'], 3 )] rfl (['y'], 3) (by decide)⟩

/-! ## The mutable `Filter` instance and the variant runner
(`strategy.py` lines 49-131) -/

/-- The observable parameter state of a `Filter` (or `Strategy`) instance:
the dynamically injected parameter attributes (`setattr(self, key, val)`)
and the `_variables` field (`None` before `__init__` runs
`set_parameters`). -/
structure FilterState where
  attrs : List (Key × PyVal)
  vars : Option Assignment
deriving DecidableEq

/-- `Filter.set_parameters` (lines 68-81): `if variables:` — `None` and the
empty dict are falsy, so attributes are injected only for a nonempty dict —
then `self._variables = variables` unconditionally. -/
def set_parameters (st : FilterState) (vars0 : Option Assignment) :
    FilterState :=
  { attrs :=
      match vars0 with
      | none => st.attrs
      | some vs =>
        if vs.isEmpty then st.attrs
        else vs.foldl (fun a p => dictInsert p.1 p.2 a) st.attrs
    vars := vars0 }

/-- What a user filter function returns: a bare signal column, or a
`(signal, fig_data)` pair. -/
inductive FuncResult (φ : Type) where
  | single : List Bool → FuncResult φ
  | withFig : List Bool → FigBundle φ → FuncResult φ

/-- Modelled from the spec: `remove_pd_object` lives in
`finlab_crypto/utility.py`, which is not among the sources at hand.  Per
§4.2-4.3 of the spec the column key is `encode(assignment)` of the
assignment itself, so on the supported scalar value types (ints, floats,
strings) the normalisation is the identity. -/
def remove_pd_object (v : Assignment) : Assignment := v

/-- The per-variant loop of `Filter.create.ret_f` (lines 106-118): set the
instance parameters, run the user function, and store the signal column
under the key `str(v)`; when the function also returns figure data the
loop rebinds `fig_data` to it (`signals[str(v)], fig_data = results`,
line 116), so each iteration replaces the previous bundle. -/
def retFLoop {Ohlcv φ : Type} (func : FilterState → Ohlcv → FuncResult φ)
    (ohlcv : Ohlcv) :
    List Assignment → FilterState → List (Key × List Bool) → FigBundle φ →
      FilterState × List (Key × List Bool) × FigBundle φ
  | [], st, signals, fig_data => (st, signals, fig_data)
  | v :: rest, st, signals, fig_data =>
    let st1 := set_parameters st (some v)
    match func st1 ohlcv with
    | .withFig col figs =>
      retFLoop func ohlcv rest st1
        (dictInsert (encodeAssignment (remove_pd_object v)) col signals) figs
    | .single col =>
      retFLoop func ohlcv rest st1
        (dictInsert (encodeAssignment (remove_pd_object v)) col signals) fig_data

/-- A parameter-spec value: a fixed scalar or a swept candidate list. -/
inductive VarVal where
  | scalar : PyVal → VarVal
  | sweep : List PyVal → VarVal
deriving DecidableEq

/-- A parameter spec: an ordered mapping from name to scalar or sweep. -/
abbrev VarSpec := List (Key × VarVal)

/-- Modelled from the spec: the Cartesian-product expansion performed by
`enumerate_variables` (`finlab_crypto/utility.py`, not among the sources
at hand).  §4.1: the ordered list of all assignments forming the Cartesian
product of each key's candidate set, outer loop = first declared key. -/
def cartProd : VarSpec → List Assignment
  | [] => [[]]
  | (k, .scalar v) :: rest => (cartProd rest).map (fun a => (k, v) :: a)
  | (k, .sweep vs) :: rest =>
    vs.flatMap (fun v => (cartProd rest).map (fun a => (k, v) :: a))

/-- Modelled from the spec: `enumerate_variables` proper
(`finlab_crypto/utility.py`, not among the sources at hand).  It yields no
assignments for `None` or an empty spec; the callers that are in the
sources — `Filter.create.ret_f` (lines 102-104) and `Strategy.backtest`
(lines 367-370) — then substitute the declared default parameters,
realising §4.1: an empty spec produces a single assignment equal to the
caller-supplied defaults, never an empty result set. -/
def enumerate_variables : Option VarSpec → List Assignment
  | none => []
  | some spec => if spec.isEmpty then [] else cartProd spec

/-- `Filter.create.ret_f` (lines 100-131) up to the signal-table assembly:
enumerate the variables (102), fall back to the declared defaults when the
enumeration is empty (103-104), and run the per-variant loop (106-118).
The subsequent `MultiIndex` reconstruction (lines 120-127) decodes the
stored keys with `eval`, the codec modelled by `decodeAssignment`. -/
def ret_f {Ohlcv φ : Type} (default_parameters : Assignment)
    (func : FilterState → Ohlcv → FuncResult φ) (vars0 : Option VarSpec)
    (st : FilterState) (ohlcv : Ohlcv) :
    FilterState × List (Key × List Bool) × FigBundle φ :=
  let variable_enumerate := enumerate_variables vars0
  let variable_enumerate :=
    if variable_enumerate.isEmpty then [default_parameters] else variable_enumerate
  retFLoop func ohlcv variable_enumerate st [] []

/-- The signal column of a user-function result. -/
def resultCol {φ : Type} : FuncResult φ → List Bool
  | .single c => c
  | .withFig c _ => c

/-- `Strategy.backtest` lines 367-370: enumerate the stop-stripped
variables and substitute the declared defaults when the enumeration is
empty. -/
def backtestVariableEnumerate (default_parameters : Assignment)
    (variables_without_stop : VarSpec) : List Assignment :=
  let variable_enumerate := enumerate_variables (some variables_without_stop)
  if variable_enumerate.isEmpty then [default_parameters] else variable_enumerate

/-- Concrete filter function for the diagnostics claim: returns a signal
and a bundle whose figure `d` records the currently active `t` parameter,
so each variant's diagnostics are distinguishable. -/
def funcC2 : FilterState → Unit → FuncResult Nat := fun st _ =>
  .withFig [true]
    [(catFigures, [( ['d'],
      (match aLookup ['t'] st.attrs with
       | some (.int n) => n.toNat
       | _ => 0) )])]

/-- Instance state after `__init__` with default `t = 0`. -/
def st0C2 : FilterState := set_parameters ⟨[], none⟩ (some [( ['t'], PyVal.int 0 )])

/-- C2: the per-variant loop of `Filter.create.ret_f` rebinds `fig_data`
on every iteration (`signals[str(v)], fig_data = results`, line 116), so
after a two-variant sweep whose variants produce distinct diagnostics the
returned bundle is exactly the last variant's bundle: variant `t = 1`'s
figure (`d = 1`) is not retrievable anywhere in it, contradicting the
required merge under assignment-qualified keys. -/
theorem retFLoop_keeps_only_last_fig_data :
    ((retFLoop funcC2 () [[( ['t'], PyVal.int 1 )], [( ['t'], PyVal.int 2 )]]
        st0C2 [] []).2.2 = [(catFigures, [( ['d'], 2 )])]) ∧
    (figLookup catFigures ['d']
        ((retFLoop funcC2 () [[( ['t'], PyVal.int 1 )], [( ['t'], PyVal.int 2 )]]
          st0C2 [] []).2.2) = some 2) ∧
    ((retFLoop funcC2 () [[( ['t'], PyVal.int 1 )], [( ['t'], PyVal.int 2 )]]
        st0C2 [] []).2.1.length = 2) := by
  refine ⟨rfl, rfl, rfl⟩

/-- Concrete filter function for the frame-effect claim. -/
def funcC8 : FilterState → Unit → FuncResult Nat := fun _ _ => .single [true]

/-- Instance state after `__init__` with default `timeperiod`-style
parameter `tp = 20`. -/
def st0C8 : FilterState :=
  set_parameters ⟨[], none⟩ (some [( ['t', 'p'], PyVal.int 20 )])

/-- C8: running the per-variant loop mutates the instance: after a sweep
over `tp = 10` and `tp = 30`, the instance's parameter attribute and its
`_variables` both hold the *last* variant's assignment (`tp = 30`), not
the pre-call state (`tp = 20`): `set_parameters` installs each assignment
on `self` (lines 108-110) and nothing restores it after the loop. -/
theorem retFLoop_mutates_instance_state :
    ((retFLoop funcC8 () [[( ['t', 'p'], PyVal.int 10 )],
        [( ['t', 'p'], PyVal.int 30 )]] st0C8 [] []).1 ≠ st0C8) ∧
    ((retFLoop funcC8 () [[( ['t', 'p'], PyVal.int 10 )],
        [( ['t', 'p'], PyVal.int 30 )]] st0C8 [] []).1 =
      FilterState.mk [( ['t', 'p'], PyVal.int 30 )]
        (some [( ['t', 'p'], PyVal.int 30 )])) ∧
    (st0C8 = FilterState.mk [( ['t', 'p'], PyVal.int 20 )]
        (some [( ['t', 'p'], PyVal.int 20 )])) := by
  refine ⟨by decide, rfl, rfl⟩

/-- C7: with an empty parameter spec (`variables={}`), enumeration plus the
in-source fallback yields exactly one assignment equal to the declared
default parameters — never zero — both in `Strategy.backtest`
(lines 367-370) and in `Filter.create.ret_f` (lines 102-104), whose loop
then runs exactly one combination keyed by the encoded defaults. -/
theorem empty_variables_single_default_combination {Ohlcv φ : Type}
    (default_parameters : Assignment) (func : FilterState → Ohlcv → FuncResult φ)
    (st : FilterState) (ohlcv : Ohlcv) :
    (backtestVariableEnumerate default_parameters [] = [default_parameters]) ∧
    ((ret_f default_parameters func (some []) st ohlcv).2.1 =
      [(encodeAssignment (remove_pd_object default_parameters),
        resultCol (func (set_parameters st (some default_parameters)) ohlcv))]) ∧
    ((ret_f default_parameters func (some []) st ohlcv).2.1.length = 1) := by
  have h2 : (ret_f default_parameters func (some []) st ohlcv).2.1 =
      [(encodeAssignment (remove_pd_object default_parameters),
        resultCol (func (set_parameters st (some default_parameters)) ohlcv))] := by
    show (retFLoop func ohlcv [default_parameters] st [] []).2.1 = _
    cases hf : func (set_parameters st (some default_parameters)) ohlcv with
    | single c =>
      simp [retFLoop, hf, resultCol, dictInsert, containsKey]
    | withFig c figs =>
      simp [retFLoop, hf, resultCol, dictInsert, containsKey]
  exact ⟨rfl, h2, by rw [h2]; rfl⟩

/-! ## `Strategy.backtest` (`strategy.py` lines 304-408) -/

/-- The error outcomes of `backtest`, named after the two raise sites:
`raise Exception('Shorting is not support yet')` (line 388; the spec's
`UnsupportedSide`) and `raise Exception("side should be 'long' or
'short'")` (line 391; the spec's `InvalidArgumentError`). -/
inductive BtError where
  | shortingNotSupport
  | sideShouldBeLongOrShort
deriving DecidableEq

/-- What `backtest` returns: the `(entries, exits, fig_data)` triple when
`signals=True`, otherwise the external simulator's portfolio object. -/
inductive BtOutput (Portfolio φ : Type) where
  | signalsTriple : Frame → Frame → FigBundle φ → BtOutput Portfolio φ
  | portfolio : Portfolio → BtOutput Portfolio φ

/-- The stop-parameter keys `['sl_stop', 'ts_stop', 'tp_stop']` (line 358). -/
def exit_vars : List Key :=
  [['s', 'l', '_', 's', 't', 'o', 'p'],
   ['t', 's', '_', 's', 't', 'o', 'p'],
   ['t', 'p', '_', 's', 't', 'o', 'p']]

/-- Lines 356-363: `variables_without_stop = copy.copy(variables)` — a
shallow copy, i.e. a distinct dict object with the same entries — then for
each stop key present in the copy, record `variables[e]` in `stop_vars`
and pop the key from the copy.  The returned triple is the final state of
the three dict objects `(variables, stop_vars, variables_without_stop)`:
every mutating operation (`pop`, item assignment) targets the copy or
`stop_vars`, never the `variables` argument, so the embedding returns the
argument component untouched.  (The `getD` default is unreachable: the
guard checks membership in the copy, whose keys are a subset of
`variables`.) -/
def splitStopVars (variables0 : VarSpec) : VarSpec × VarSpec × VarSpec :=
  let step := fun (acc : VarSpec × VarSpec) (e : Key) =>
    if containsKey e acc.2 then
      (dictInsert e ((aLookup e variables0).getD (VarVal.scalar (PyVal.int 0))) acc.1,
        dictRemove e acc.2)
    else acc
  let r := exit_vars.foldl step ([], variables0)
  (variables0, r.1, r.2)

/-- The supported transaction side `'long'`. -/
def sideLong : Key := ['l', 'o', 'n', 'g']

/-- The unsupported transaction side `'short'`. -/
def sideShort : Key := ['s', 'h', 'o', 'r', 't']

/-- `Strategy._enumerate_filters` (lines 196-230): call each filter's
created function on the (lookback-sliced) table, collecting
`name -> (signals, figures)` in dict order. -/
def _enumerate_filters {Ohlcv φ : Type} (ohlcv : Ohlcv)
    (filters : List (Key × (Ohlcv → Frame × Option (FigBundle φ)))) :
    List (Key × Frame × Option (FigBundle φ)) :=
  filters.map (fun f => (f.1, f.2 ohlcv))

/-- `Strategy._add_stops` (lines 278-302): delegate to the external
`stop_early` (utility.py, an external collaborator per the spec); the
trailing `squeeze()` only reshapes a one-column frame to a series and is
the identity in this representation. -/
def _add_stops {Ohlcv : Type}
    (stop_early : Ohlcv → Frame → Frame → VarSpec → Frame × Frame)
    (ohlcv : Ohlcv) (entries exits : Frame) (variables0 : VarSpec) :
    Frame × Frame :=
  stop_early ohlcv entries exits variables0

/-- `Strategy.backtest` (lines 304-408), parameterised over its external
collaborators: `enumerate_signal` and `stop_early` (utility.py),
`vbt.Portfolio.from_signals` (close prices and the `fillna(False)`
normalisation folded into it), and `.iloc[-lookback:]` slicing.  Control
flow: strip the stop parameters from a shallow copy of `variables`
(356-363), slice the lookback window (365; Python truthiness: `None` and
`0` mean full history), enumerate with the defaults fallback (367-370),
run the signal enumeration (372), compose the filters if any (374-376),
overlay the stops (378), then either return the signals triple (380-381)
or validate `side` and run the simulator (383-391).  Plotting (393-406)
changes no returned value and is outside the core per the spec. -/
def backtest {Ohlcv Portfolio φ : Type} (default_parameters : Assignment)
    (enumerate_signal : Ohlcv → List Assignment → Frame × Frame × FigBundle φ)
    (stop_early : Ohlcv → Frame → Frame → VarSpec → Frame × Frame)
    (from_signals : Ohlcv → Frame → Frame → Portfolio)
    (iloc_last : Ohlcv → Nat → Ohlcv)
    (ohlcv : Ohlcv) (variables0 : VarSpec)
    (filters : List (Key × (Ohlcv → Frame × Option (FigBundle φ))))
    (lookback : Option Nat) (signals : Bool) (side : Key) :
    Except BtError (BtOutput Portfolio φ) :=
  let split := splitStopVars variables0
  let stop_vars := split.2.1
  let variables_without_stop := split.2.2
  let ohlcv_lookback :=
    match lookback with
    | some n => if n = 0 then ohlcv else iloc_last ohlcv n
    | none => ohlcv
  let variable_enumerate :=
    backtestVariableEnumerate default_parameters variables_without_stop
  let sig := enumerate_signal ohlcv_lookback variable_enumerate
  let sig2 :=
    if filters.isEmpty then sig
    else _add_filters sig.1 sig.2.1 sig.2.2 (_enumerate_filters ohlcv_lookback filters)
  let stopped := _add_stops stop_early ohlcv_lookback sig2.1 sig2.2.1 stop_vars
  if signals then Except.ok (BtOutput.signalsTriple stopped.1 stopped.2 sig2.2.2)
  else if side = sideLong then
    Except.ok (BtOutput.portfolio (from_signals ohlcv_lookback stopped.1 stopped.2))
  else if side = sideShort then Except.error BtError.shortingNotSupport
  else Except.error BtError.sideShouldBeLongOrShort

/-- C6: with `signals=False`, `side='short'` fails with the
shorting-unsupported error (line 388; the spec's `UnsupportedSide`); any
side other than `'long'` and `'short'` fails with the side-validation
error (line 391; the spec's `InvalidArgumentError`); `side='long'` raises
neither and returns the simulator's portfolio. -/
theorem backtest_side_validation {Ohlcv Portfolio φ : Type}
    (default_parameters : Assignment)
    (enumerate_signal : Ohlcv → List Assignment → Frame × Frame × FigBundle φ)
    (stop_early : Ohlcv → Frame → Frame → VarSpec → Frame × Frame)
    (from_signals : Ohlcv → Frame → Frame → Portfolio)
    (iloc_last : Ohlcv → Nat → Ohlcv) (ohlcv : Ohlcv) (variables0 : VarSpec)
    (filters : List (Key × (Ohlcv → Frame × Option (FigBundle φ))))
    (lookback : Option Nat) (side : Key) :
    (side = sideShort →
      backtest default_parameters enumerate_signal stop_early from_signals
          iloc_last ohlcv variables0 filters lookback false side =
        Except.error BtError.shortingNotSupport) ∧
    (¬ side = sideLong → ¬ side = sideShort →
      backtest default_parameters enumerate_signal stop_early from_signals
          iloc_last ohlcv variables0 filters lookback false side =
        Except.error BtError.sideShouldBeLongOrShort) ∧
    (side = sideLong → ∃ pf,
      backtest default_parameters enumerate_signal stop_early from_signals
          iloc_last ohlcv variables0 filters lookback false side =
        Except.ok (BtOutput.portfolio pf)) := by
  refine ⟨?_, ?_, ?_⟩
  · intro hs
    subst hs
    simp only [backtest]
    rw [if_neg Bool.false_ne_true, if_neg (by decide : ¬ (sideShort = sideLong)),
      if_pos trivial]
  · intro h1 h2
    simp only [backtest]
    rw [if_neg Bool.false_ne_true, if_neg h1, if_neg h2]
  · intro hs
    subst hs
    exact ⟨_, by
      simp only [backtest]
      rw [if_neg Bool.false_ne_true, if_pos trivial]⟩

/-- C6 (witness): with trivial external collaborators, `side='short'`
errors with the shorting message, `side='x'` errors with the validation
message, and `side='long'` returns a portfolio. -/
theorem backtest_side_validation_witness :
    (@backtest Unit Unit Unit []
        (fun _ _ => ([], [], [])) (fun _ e x _ => (e, x)) (fun _ _ _ => ())
        (fun o _ => o) () [] [] none false sideShort =
      Except.error BtError.shortingNotSupport) ∧
    (@backtest Unit Unit Unit []
        (fun _ _ => ([], [], [])) (fun _ e x _ => (e, x)) (fun _ _ _ => ())
        (fun o _ => o) () [] [] none false ['x'] =
      Except.error BtError.sideShouldBeLongOrShort) ∧
    (∃ pf, @backtest Unit Unit Unit []
        (fun _ _ => ([], [], [])) (fun _ e x _ => (e, x)) (fun _ _ _ => ())
        (fun o _ => o) () [] [] none false sideLong =
      Except.ok (BtOutput.portfolio pf)) :=
  ⟨(backtest_side_validation [] (fun _ _ => ([], [], [])) (fun _ e x _ => (e, x))
      (fun _ _ _ => ()) (fun o _ => o) () [] [] none sideShort).1 rfl,
   (backtest_side_validation [] (fun _ _ => ([], [], [])) (fun _ e x _ => (e, x))
      (fun _ _ _ => ()) (fun o _ => o) () [] [] none ['x']).2.1 (by decide)
      (by decide),
   (backtest_side_validation [] (fun _ _ => ([], [], [])) (fun _ e x _ => (e, x))
      (fun _ _ _ => ()) (fun o _ => o) () [] [] none sideLong).2.2 rfl⟩

/-- C10: with `signals=True`, `backtest` returns the
`(entries, exits, fig_data)` triple at line 380-381, before `side` is ever
examined: the result does not depend on `side` and is never a
side-validation error, whatever `side` is — including `'short'` and
unrecognised strings. -/
theorem backtest_signals_short_circuits_side {Ohlcv Portfolio φ : Type}
    (default_parameters : Assignment)
    (enumerate_signal : Ohlcv → List Assignment → Frame × Frame × FigBundle φ)
    (stop_early : Ohlcv → Frame → Frame → VarSpec → Frame × Frame)
    (from_signals : Ohlcv → Frame → Frame → Portfolio)
    (iloc_last : Ohlcv → Nat → Ohlcv) (ohlcv : Ohlcv) (variables0 : VarSpec)
    (filters : List (Key × (Ohlcv → Frame × Option (FigBundle φ))))
    (lookback : Option Nat) (side side' : Key) :
    (backtest default_parameters enumerate_signal stop_early from_signals
        iloc_last ohlcv variables0 filters lookback true side =
      backtest default_parameters enumerate_signal stop_early from_signals
        iloc_last ohlcv variables0 filters lookback true side') ∧
    (∃ e x f,
      backtest default_parameters enumerate_signal stop_early from_signals
          iloc_last ohlcv variables0 filters lookback true side =
        Except.ok (BtOutput.signalsTriple e x f)) :=
  ⟨rfl, ⟨_, _, _, rfl⟩⟩

theorem exists_of_containsKey {k : Key} {d : List (Key × α)}
    (h : containsKey k d = true) : ∃ p ∈ d, p.1 = k := by
  induction d with
  | nil => simp [containsKey] at h
  | cons p rest ih =>
    simp only [containsKey, Bool.or_eq_true, decide_eq_true_eq] at h
    rcases h with h | h
    · exact ⟨p, List.mem_cons_self p rest, h⟩
    · obtain ⟨q, hq, hqk⟩ := ih h
      exact ⟨q, List.mem_cons_of_mem p hq, hqk⟩

theorem not_containsKey_iff {k : Key} {d : List (Key × α)} :
    containsKey k d = false ↔ ∀ p ∈ d, ¬ (p.1 = k) := by
  induction d with
  | nil => simp [containsKey]
  | cons p rest ih =>
    simp only [containsKey, Bool.or_eq_false_iff, decide_eq_false_iff_not, ih]
    constructor
    · rintro ⟨h1, h2⟩ q hq
      rcases List.mem_cons.mp hq with he | hq'
      · exact he ▸ h1
      · exact h2 q hq'
    · intro h
      exact ⟨h p (List.mem_cons_self p rest),
        fun q hq => h q (List.mem_cons_of_mem p hq)⟩

theorem containsKey_filter (k : Key) (d : List (Key × α)) (pred : Key × α → Bool)
    (h : ∀ p ∈ d, p.1 = k → pred p = true) :
    containsKey k (d.filter pred) = containsKey k d := by
  induction d with
  | nil => rfl
  | cons p rest ih =>
    have ih' := ih (fun q hq => h q (List.mem_cons_of_mem p hq))
    by_cases hp : pred p = true
    · rw [List.filter_cons_of_pos hp]
      simp only [containsKey, ih']
    · rw [List.filter_cons_of_neg (by simpa using hp)]
      have hpk : ¬ (p.1 = k) := fun he => hp (h p (List.mem_cons_self p rest) he)
      simp only [containsKey, ih', decide_eq_false hpk, Bool.false_or]

theorem splitStop_fold (variables0 : VarSpec) :
    ∀ (es : List Key), es.Nodup →
      ∀ (stop : VarSpec) (done : List Key),
        (∀ e ∈ es, e ∉ done) → (∀ p ∈ stop, p.1 ∈ done) →
        es.foldl (fun acc e =>
            if containsKey e acc.2 then
              (dictInsert e ((aLookup e variables0).getD
                  (VarVal.scalar (PyVal.int 0))) acc.1,
                dictRemove e acc.2)
            else acc)
          (stop, variables0.filter (fun p => decide (p.1 ∉ done))) =
        (stop ++ es.filterMap (fun e => (aLookup e variables0).map (fun v => (e, v))),
          variables0.filter (fun p => decide (p.1 ∉ done ++ es))) := by
  intro es
  induction es with
  | nil =>
    intro _ stop done _ _
    simp
  | cons e es ih =>
    intro hnd stop done hdone hstop
    rw [List.nodup_cons] at hnd
    simp only [List.foldl_cons]
    have hck : containsKey e (variables0.filter (fun p => decide (p.1 ∉ done))) =
        containsKey e variables0 :=
      containsKey_filter e variables0 _ (fun p _ hpk => by
        rw [hpk]
        exact decide_eq_true (hdone e (List.mem_cons_self e es)))
    have hd : ∀ e' ∈ es, e' ∉ done ++ [e] := by
      intro e' he' hin
      rcases List.mem_append.mp hin with hin | hin
      · exact hdone e' (List.mem_cons_of_mem e he') hin
      · rw [List.mem_singleton] at hin
        exact hnd.1 (hin ▸ he')
    by_cases hc : containsKey e variables0 = true
    · obtain ⟨v, hv⟩ := aLookup_some_of_contains hc
      rw [if_pos (by rw [hck]; exact hc)]
      have hsc : containsKey e stop = false := by
        rw [not_containsKey_iff]
        intro p hp he
        exact hdone e (List.mem_cons_self e es) (he ▸ hstop p hp)
      have hins : dictInsert e
          ((aLookup e variables0).getD (VarVal.scalar (PyVal.int 0))) stop =
          stop ++ [(e, v)] := by
        rw [dictInsert, hv, if_neg (by simp [hsc])]
        rfl
      have hrem : dictRemove e (variables0.filter (fun p => decide (p.1 ∉ done))) =
          variables0.filter (fun p => decide (p.1 ∉ done ++ [e])) := by
        rw [dictRemove, List.filter_filter]
        apply List.filter_congr
        intro p _
        by_cases h1 : p.1 = e <;> by_cases h2 : p.1 ∈ done <;>
          simp [h1, h2, List.mem_append]
      rw [hins, hrem, ih hnd.2 (stop ++ [(e, v)]) (done ++ [e]) hd ?hs]
      case hs =>
        intro p hp
        rcases List.mem_append.mp hp with hp | hp
        · exact List.mem_append.mpr (Or.inl (hstop p hp))
        · rw [List.mem_singleton] at hp
          exact List.mem_append.mpr (Or.inr (by rw [hp]; exact List.mem_singleton.mpr rfl))
      rw [List.filterMap_cons, hv]
      simp [List.append_assoc]
    · rw [if_neg (by rw [hck]; simp [hc])]
      have hcf : containsKey e variables0 = false := Bool.eq_false_iff.mpr hc
      have hnone : aLookup e variables0 = none :=
        aLookup_eq_none_of_not_contains hcf
      have hfeq : variables0.filter (fun p => decide (p.1 ∉ done)) =
          variables0.filter (fun p => decide (p.1 ∉ done ++ [e])) := by
        apply List.filter_congr
        intro p hp
        have hpe : ¬ (p.1 = e) := not_containsKey_iff.mp hcf p hp
        by_cases h2 : p.1 ∈ done <;> simp [h2, hpe, List.mem_append]
      rw [hfeq, ih hnd.2 stop (done ++ [e]) hd
        (fun p hp => List.mem_append.mpr (Or.inl (hstop p hp)))]
      rw [List.filterMap_cons, hnone]
      simp [List.append_assoc]

/-- C9: `Strategy.backtest` leaves the caller-supplied `variables` mapping
unchanged: the stop keys `sl_stop`/`ts_stop`/`tp_stop` are popped only
from the shallow copy `variables_without_stop`, which afterwards equals
`variables` minus the stop keys, while `stop_vars` collects the stop
entries read from `variables`; the `variables` object itself is never
mutated. -/
theorem backtest_preserves_caller_variables (variables0 : VarSpec) :
    ((splitStopVars variables0).1 = variables0) ∧
    ((splitStopVars variables0).2.2 =
      variables0.filter (fun p => decide (p.1 ∉ exit_vars))) ∧
    ((splitStopVars variables0).2.1 =
      exit_vars.filterMap (fun e => (aLookup e variables0).map (fun v => (e, v)))) := by
  have h := splitStop_fold variables0 exit_vars (by decide) [] []
    (fun e _ hin => absurd hin (List.not_mem_nil e))
    (fun p hp => absurd hp (List.not_mem_nil p))
  have hinit : variables0.filter (fun p => decide (p.1 ∉ ([] : List Key))) =
      variables0 :=
    List.filter_eq_self.mpr (fun p _ => by simp)
  rw [hinit] at h
  refine ⟨rfl, ?_, ?_⟩
  · show (exit_vars.foldl (fun acc e =>
        if containsKey e acc.2 then
          (dictInsert e ((aLookup e variables0).getD
              (VarVal.scalar (PyVal.int 0))) acc.1,
            dictRemove e acc.2)
        else acc) ([], variables0)).2 =
      variables0.filter (fun p => decide (p.1 ∉ exit_vars))
    rw [h]
    simp
  · show (exit_vars.foldl (fun acc e =>
        if containsKey e acc.2 then
          (dictInsert e ((aLookup e variables0).getD
              (VarVal.scalar (PyVal.int 0))) acc.1,
            dictRemove e acc.2)
        else acc) ([], variables0)).1 =
      exit_vars.filterMap (fun e => (aLookup e variables0).map (fun v => (e, v)))
    rw [h]
    simp
